import Mathlib

/-!
# gocov report: aggregation, ranking and rendering

A shallow embedding of `report.go` (package `gocov`) and the properties of
its natural-language specification, settled against the code.

Conventions of the embedding

* Go slices of pointers (`[]*Package`, `[]*Function`, `[]*Statement`) are
  lists of values; nil pointers are not modelled.
* A Go `panic` is the `Except.error` outcome of the operation.
* `sort.Search`, `sort.Sort`, `filepath.Base` and the `fmt` verbs are library
  code; they are modelled from the Go standard library.
* `float64` values are carried exactly (see `F64`).
* A Go `string` is a sequence of bytes; the embedding holds it as a `String`,
  a sequence of Unicode characters, and so covers the strings that are valid
  UTF-8 (`goBytes` gives the bytes). `report.go` itself copies, compares and
  concatenates strings; the one place where single bytes matter is
  `text/tabwriter` (see the tab writer).
-/

namespace Gocov

/-! ## Data model -/

/-- Modelled from the spec: the `Statement` record of the coverage model, which
is declared outside `report.go`. Only the reached count is read by the report
(`stmt.Reached > 0`); the source position is not. -/
structure Statement where
  Reached : Int
deriving DecidableEq, Repr

/-- Modelled from the spec: the `Function` record of the coverage model, which
is declared outside `report.go`: a name, the defining file, the starting line
and the statements in discovery order. -/
structure Function where
  Name : String
  File : String
  Line : Int
  Statements : List Statement
deriving DecidableEq, Repr

/-- Modelled from the spec: the `Package` record of the coverage model, which is
declared outside `report.go`: a name and the functions in discovery order. -/
structure Package where
  Name : String
  Functions : List Function
deriving DecidableEq, Repr

/-- The `Report` struct: the package collection. -/
structure Report where
  packages : List Package
deriving DecidableEq, Repr

/-- The `reportFunction` struct: an embedded `*Function` and the number of
statements reached. -/
structure reportFunction where
  toFunction : Function
  statementsReached : Int
deriving DecidableEq, Repr

/-! ## The aggregator -/

/-- The loop of `sort.Search`: `for i < j { h := int(uint(i+j) >> 1);
if !f(h) { i = h + 1 } else { j = h } }; return i`. The first argument
bounds the number of iterations; `j - i` iterations are always enough
(`sortSearchLoop_fuel`). -/
def sortSearchLoop (f : Nat → Bool) : Nat → Nat → Nat → Nat
  | 0, i, _ => i
  | fuel + 1, i, j =>
    if i < j then
      let h := (i + j) / 2
      if !f h then sortSearchLoop f fuel (h + 1) j else sortSearchLoop f fuel i h
    else i

/-- Go's `sort.Search(n, f)`. -/
def sortSearch (n : Nat) (f : Nat → Bool) : Nat :=
  sortSearchLoop f n 0 n

/-- Lexicographic `<` on character sequences, by code point. -/
def ltChars : List Char → List Char → Bool
  | _, [] => false
  | [], _ :: _ => true
  | a :: as, b :: bs =>
    if a.toNat < b.toNat then true
    else if b.toNat < a.toNat then false
    else ltChars as bs

/-- Go's `a < b` on strings: lexicographic on the UTF-8 bytes, which orders
valid strings as their code points do. -/
def strLT (a b : String) : Bool := ltChars a.data b.data

/-- Go's `a >= b` on strings. -/
def strGE (a b : String) : Bool := !strLT a b

/-- The closure handed to `sort.Search` by `AddPackage`:
`func(i int) bool { return r.packages[i].Name >= r.packages[i].Name }`.
(`sort.Search` only probes indices below `len(r.packages)`.) -/
def addPackagePred (packages : List Package) (i : Nat) : Bool :=
  match packages[i]? with
  | some q => strGE q.Name q.Name
  | none => false

/-- `NewReport`: a report with no packages. -/
def NewReport : Report := { packages := [] }

/-- `Report.AddPackage`. The panic is the `error` outcome; otherwise the new
collection is `append(r.packages[:i], append([]*Package{p}, r.packages[i:]...)...)`. -/
def Report.AddPackage (r : Report) (p : Package) : Except String Report :=
  let i := sortSearch r.packages.length (addPackagePred r.packages)
  if i < r.packages.length ∧ (r.packages[i]?.map (fun q => q.Name)) = some p.Name then
    Except.error "package already exists: result merging not implemented yet"
  else
    let head := r.packages.take i
    let tail := [p] ++ r.packages.drop i
    Except.ok { packages := head ++ tail }

/-- `Report.Clear`: `r.packages = nil`. -/
def Report.Clear (_r : Report) : Report := { packages := [] }

/-- A sequence of `AddPackage` calls, stopping at the first panic. -/
def addPackages (r : Report) : List Package → Except String Report
  | [] => Except.ok r
  | p :: ps =>
    match r.AddPackage p with
    | Except.ok r' => addPackages r' ps
    | Except.error e => Except.error e

/-- A package with the given name and no functions. -/
def pkgNamed (n : String) : Package := { Name := n, Functions := [] }

/-- The names of the packages a report holds, in the order it holds them. -/
def Report.names (r : Report) : List String := r.packages.map (fun q => q.Name)

/-- Non-descending order of package names: no later name is below an earlier one. -/
def SortedByName (l : List Package) : Prop :=
  l.Pairwise (fun a b => strLT b.Name a.Name = false)

/-- No two packages of the collection share a name. -/
def NoDupNames (l : List Package) : Prop :=
  (l.map (fun q => q.Name)).Nodup

instance (l : List Package) : Decidable (SortedByName l) := by
  unfold SortedByName; infer_instance

instance (l : List Package) : Decidable (NoDupNames l) := by
  unfold NoDupNames; infer_instance

/-- The insertion index the specification asks for: the index of the first
package whose name is `>=` the new name, the length of the collection when
there is none. -/
def specInsertIndex (l : List Package) (name : String) : Nat :=
  l.findIdx (fun q => strGE q.Name name)

/-! ## float64

`Less` and `printPackage` compute in `float64`. Every finite `float64` is an
integer multiple of `2^-1074`, so a finite value `v` is carried as the integer
`v * 2^1074`, and the operations round to nearest, ties to even, at 53
significant bits as IEEE 754 prescribes. Overflow to infinity is left out: the
operands are conversions of 64-bit integers and the results stay far below
`2^1024`. The sign of zero is left out as well: no operation of the report
produces a negative zero. -/

/-- The loop counting the binary digits of its second argument. -/
def bitLenAux : Nat → Nat → Nat
  | 0, _ => 0
  | fuel + 1, n => if n = 0 then 0 else bitLenAux fuel (n / 2) + 1

/-- The number of binary digits of `n` (`0` for `0`). -/
def bitLen (n : Nat) : Nat := bitLenAux n n

/-- The integer nearest to `n / d`, ties to the even one. -/
def roundHalfEven (n d : Nat) : Nat :=
  let q := n / d
  let r := n % d
  if 2 * r < d then q else if d < 2 * r then q + 1 else if q % 2 = 0 then q else q + 1

/-- The scale of the embedding: `2^1074` units make `1.0`. -/
@[irreducible]
def f64Scale : Nat := 2 ^ 1074

/-- The multiple of `2^s` nearest to `n / d`, ties to even, where `s` drops the
binary digits of `n / d` beyond the 53rd: the `float64` nearest to the exact
quotient of `n` by `d`, in units of `2^-1074`. -/
def roundNE (n d : Nat) : Nat :=
  let s := bitLen (n / d) - 53
  roundHalfEven n (d * 2 ^ s) * 2 ^ s

/-- A `float64`: a finite value `k * 2^-1074`, an infinity, or a NaN. -/
inductive F64 where
  | fin (k : Int)
  | inf (neg : Bool)
  | nan
deriving DecidableEq, Repr

/-- The `float64` zero value of `var left, right float64`. -/
def F64.zero : F64 := F64.fin 0

/-- The conversion `float64(n)` of an integer. -/
def F64.ofInt (n : Int) : F64 :=
  F64.fin (n.sign * (roundNE (n.natAbs * f64Scale) 1 : Nat))

/-- The `float64` quotient `x / y`. -/
def F64.div : F64 → F64 → F64
  | F64.fin a, F64.fin b =>
    if b = 0 then (if a = 0 then F64.nan else F64.inf (decide (a < 0)))
    else F64.fin (a.sign * b.sign * (roundNE (a.natAbs * f64Scale) b.natAbs : Nat))
  | F64.fin _, F64.inf _ => F64.fin 0
  | F64.inf s, F64.fin b => F64.inf (xor s (decide (b < 0)))
  | _, _ => F64.nan

/-- The `float64` product `x * y`. -/
def F64.mul : F64 → F64 → F64
  | F64.fin a, F64.fin b =>
    F64.fin (a.sign * b.sign * (roundNE (a.natAbs * b.natAbs) f64Scale : Nat))
  | F64.fin a, F64.inf s => if a = 0 then F64.nan else F64.inf (xor s (decide (a < 0)))
  | F64.inf s, F64.fin b => if b = 0 then F64.nan else F64.inf (xor s (decide (b < 0)))
  | F64.inf s, F64.inf t => F64.inf (xor s t)
  | _, _ => F64.nan

/-- The `float64` comparison `x < y`. -/
def F64.lt : F64 → F64 → Bool
  | F64.fin a, F64.fin b => decide (a < b)
  | F64.fin _, F64.inf neg => !neg
  | F64.inf neg, F64.fin _ => neg
  | F64.inf s, F64.inf t => s && !t
  | _, _ => false

/-- The `float64` comparison `x == y`. -/
def F64.eq : F64 → F64 → Bool
  | F64.fin a, F64.fin b => decide (a = b)
  | F64.inf s, F64.inf t => s == t
  | _, _ => false

/-- Two decimal digits. -/
def twoDigits (n : Nat) : String :=
  (if n < 10 then "0" else "") ++ toString n

/-- The verb `%.2f` of `fmt`: the decimal numeral with two fractional digits
nearest to the exact value of the `float64`, ties to even. -/
def fmtFloat2 : F64 → String
  | F64.fin k =>
    let h := roundHalfEven (k.natAbs * 100) f64Scale
    (if k < 0 then "-" else "") ++ toString (h / 100) ++ "." ++ twoDigits (h % 100)
  | F64.inf neg => if neg then "-Inf" else "+Inf"
  | F64.nan => "NaN"

/-! ## Ranking -/

/-- The number of statements `len(fn.Statements)` of a report function. -/
def reportFunction.total (a : reportFunction) : Nat := a.toFunction.Statements.length

/-- The value `left` (or `right`) of `Less`: zero, or the `float64` quotient of
the reached count by the statement count when there are statements. -/
def coverage (a : reportFunction) : F64 :=
  if a.total > 0 then F64.div (F64.ofInt a.statementsReached) (F64.ofInt a.total)
  else F64.zero

/-- The finite value of `coverage`, in units of `2^-1074` (`coverage` is always
finite, `coverage_eq_fin`). -/
def covKey (a : reportFunction) : Int :=
  match coverage a with
  | F64.fin k => k
  | _ => 0

/-- The coverage ratio in exact arithmetic: reached / total, and 0 when the
total is 0. -/
def exactRatio (a : reportFunction) : ℚ :=
  if a.total > 0 then (a.statementsReached : ℚ) / (a.total : ℚ) else 0

/-- The body of `reportFunctionList.Less` on the two elements it indexes. -/
def lessFn (a b : reportFunction) : Bool :=
  let left := coverage a
  let right := coverage b
  if F64.lt left right then true
  else F64.eq left right && decide (a.total < b.total)

/-- `reportFunctionList.Less(i, j)`; an index out of range panics in Go and is
`none` here. -/
def reportFunctionList.Less (l : List reportFunction) (i j : Nat) : Option Bool :=
  match l[i]?, l[j]? with
  | some a, some b => some (lessFn a b)
  | _, _ => none

/-- `reverse.Less(i, j)`, which is `r.Interface.Less(j, i)`. -/
def reverse.Less (l : List reportFunction) (i j : Nat) : Option Bool :=
  reportFunctionList.Less l j i

/-- The comparison `reverse{functions}` hands to `sort.Sort`, on elements. -/
def reverseLessFn (a b : reportFunction) : Bool := lessFn b a

/-- A sorting procedure in the role of Go's `sort.Sort`: from a comparison and
a sequence to the rearranged sequence. -/
abbrev Sorter := (reportFunction → reportFunction → Bool) → List reportFunction →
  List reportFunction

/-- A strict weak ordering, which `sort.Sort` expects of `Less`. -/
def IsStrictWeak (less : reportFunction → reportFunction → Bool) : Prop :=
  (∀ a, less a a = false) ∧
  (∀ a b c, less a b = true → less b c = true → less a c = true) ∧
  (∀ a b c, less a b = false → less b c = false → less a c = false)

/-- What `sort.Sort` documents: it rearranges the data by swaps, so the result
is a permutation, into ascending order as determined by `Less`, so no element
is `Less` than one before it. The order of equal elements is left open (the
sort is not guaranteed to be stable). -/
def SortContract (srt : Sorter) : Prop :=
  ∀ less l, IsStrictWeak less →
    (srt less l).Perm l ∧ (srt less l).Pairwise (fun a b => less b a = false)

/-- Insertion of one element into a sequence in ascending order. -/
def insertSorted (less : reportFunction → reportFunction → Bool) (a : reportFunction) :
    List reportFunction → List reportFunction
  | [] => [a]
  | b :: l => if less b a then b :: insertSorted less a l else a :: b :: l

/-- An insertion sort: one procedure that meets `SortContract`. -/
def insertionSorter : Sorter := fun less l => l.foldr (insertSorted less) []

/-! ## Rendering -/

/-- Go's `filepath.Base` with the separator `/`: the last element of the path,
trailing separators removed first; `.` for the empty path and `/` for a path
of separators only. -/
def filepathBase (path : String) : String :=
  if path = "" then "."
  else
    let stripped := path.data.reverse.dropWhile (fun c => c == '/')
    let last := (stripped.takeWhile (fun c => c != '/')).reverse
    if last = [] then "/" else String.mk last

/-- The loop of `printPackage` counting the statements with `Reached > 0`. -/
def countReached (fn : Function) : Int :=
  fn.Statements.foldl (fun reached stmt => if stmt.Reached > 0 then reached + 1 else reached) 0

/-- The element `reportFunction{fn, reached}` the first loop of `printPackage`
stores for the function `fn`. -/
def reportFunctionOf (fn : Function) : reportFunction :=
  { toFunction := fn, statementsReached := countReached fn }

/-- The first loop of `printPackage`: one `reportFunction` per function. -/
def reportFunctions (pkg : Package) : List reportFunction :=
  pkg.Functions.map reportFunctionOf

/-- The list `functions` of `printPackage` after `sort.Sort(reverse{functions})`. -/
def rankedFunctions (srt : Sorter) (pkg : Package) : List reportFunction :=
  srt reverseLessFn (reportFunctions pkg)

/-- The value `stmtPercent` of `printPackage`. -/
def stmtPercent (fn : reportFunction) : F64 :=
  if fn.total > 0 then
    F64.mul (F64.div (F64.ofInt fn.statementsReached) (F64.ofInt fn.total)) (F64.ofInt 100)
  else F64.zero

/-- The text `fmt.Fprintf` writes for one function, with the format
`"%s/%s:%d\t %s\t %.2f%% (%d/%d)\n"`. -/
def formatRow (pkgName : String) (fn : reportFunction) : String :=
  pkgName ++ "/" ++ filepathBase fn.toFunction.File ++ ":" ++ toString fn.toFunction.Line
    ++ "\t " ++ fn.toFunction.Name ++ "\t " ++ fmtFloat2 (stmtPercent fn) ++ "% ("
    ++ toString fn.statementsReached ++ "/" ++ toString fn.total ++ ")\n"

/-- A writer, as the sequence of the texts written to it so far, one per call. -/
abbrev Writer := List String

/-- `printPackage`: ranks the functions of the package and writes one row per
function. -/
def printPackage (srt : Sorter) (w : Writer) (pkg : Package) : Writer :=
  (rankedFunctions srt pkg).foldl (fun w fn => w ++ [formatRow pkg.Name fn]) w

/-- The loop of `PrintReport` over the writer `w` it has wrapped: for each
package, `printPackage(w, pkg)` and then `fmt.Fprintln(w)`. -/
def printPackages (srt : Sorter) (w : Writer) (packages : List Package) : Writer :=
  packages.foldl (fun w pkg => printPackage srt w pkg ++ ["\n"]) w

/-- The rows `PrintReport` writes to its tab writer, which starts empty. -/
def reportRows (srt : Sorter) (r : Report) : List String :=
  printPackages srt [] r.packages

/-! ## The tab writer

`PrintReport` wraps its writer in `tabwriter.NewWriter(w, 0, 8, 0, '\t', 0)`:
minimal cell width 0, tab width 8, padding 0, padding character tab, no
flags. The model follows `text/tabwriter` for this configuration. A cell is
its text; its width is the number of its characters.

Scope. `text/tabwriter` reads bytes. It measures a cell with
`utf8.RuneCount`, which on valid UTF-8 is the number of characters, and it
takes the byte `0xff` (`tabwriter.Escape`), whatever the flags, as the start
of an escaped segment in which tabs and newlines are text. The model reads
characters, that is, text that is valid UTF-8: no byte of such a text is
`0xff` (`goBytes_plain`), so `Write` never enters an escaped segment and the
model has no case for it. Text that is not valid UTF-8, a name holding the
byte `0xff` in particular, is outside the model, and nothing proved here
speaks about it. -/

/-- The state of a `tabwriter.Writer`: the text delivered to the underlying
writer so far, the completed lines it buffers (each the list of its cells),
the terminated cells of the line being built, and the text of the cell being
built. -/
structure TabWriter where
  output : List Char
  lines : List (List (List Char))
  line : List (List Char)
  cell : List Char
deriving DecidableEq, Repr

/-- The padding `writePadding` writes after a cell of width `textw` in a column
of width `cellw` when padding is done with tabs: the column width is made a
multiple of the tab width 8 and the gap is filled with tabs. -/
def cellPadding (textw cellw : Nat) : List Char :=
  let cellw8 := (cellw + 8 - 1) / 8 * 8
  List.replicate ((cellw8 - textw + 8 - 1) / 8) '\t'

/-- The cells of one line as `writeLines` writes them: each cell that has a
column width is followed by its padding. -/
def writeCells : List Nat → List (List Char) → List Char
  | _, [] => []
  | [], c :: cs => c ++ writeCells [] cs
  | w :: ws, c :: cs => c ++ cellPadding c.length w ++ writeCells ws cs

/-- A buffered line as `writeLines` writes it: its cells and a newline. -/
def writeLine (widths : List Nat) (line : List (List Char)) : List Char :=
  writeCells widths line ++ ['\n']

/-- The recursion `format` of the tab writer, with `column = len(widths)`: the
lines without a cell in this column (the last cell of a line belongs to no
column) are written with the widths known; a run of consecutive lines with a
cell in this column is a column block, whose width is the largest width of
its cells in the column, and is formatted with that width pushed. The first
argument bounds the depth of the recursion. -/
def formatLines : Nat → List Nat → List (List (List Char)) → List Char
  | 0, widths, lines => (lines.map (writeLine widths)).flatten
  | fuel + 1, widths, lines =>
    let column := widths.length
    let plain := lines.takeWhile (fun l => decide (l.length ≤ column + 1))
    let rest := lines.dropWhile (fun l => decide (l.length ≤ column + 1))
    let block := rest.takeWhile (fun l => decide (column + 1 < l.length))
    let after := rest.dropWhile (fun l => decide (column + 1 < l.length))
    let width := block.foldl (fun w l => max w (l.getD column []).length) 0
    (plain.map (writeLine widths)).flatten ++
      (if block = [] then []
       else formatLines fuel (widths ++ [width]) block ++ formatLines fuel widths after)

/-- The text a flush delivers for the buffered lines. -/
def flushLines (lines : List (List (List Char))) : List Char :=
  formatLines (lines.length + (lines.map List.length).sum + 1) [] lines

/-- A new tab writer: nothing delivered, nothing buffered. -/
def TabWriter.new : TabWriter := { output := [], lines := [], line := [], cell := [] }

/-- One character of valid UTF-8 text through `Writer.Write`, outside an
escaped segment: a tab or a vertical tab ends the cell; a newline or a form
feed ends the cell and the line, and a form feed, or a newline ending a line
of a single cell, flushes the buffered lines; any other character is text of
the cell. The case `Escape` of `Write` (the byte `0xff`) is not modelled: no
character has that byte in its encoding (`utf8Bytes_plain`). The cases `<` and
`&` of `Write` need the flag `FilterHTML`, which `PrintReport` does not set. -/
def TabWriter.writeChar (b : TabWriter) (ch : Char) : TabWriter :=
  if ch = '\t' ∨ ch = '\x0b' then
    { b with line := b.line ++ [b.cell], cell := [] }
  else if ch = '\n' ∨ ch = '\x0c' then
    let line := b.line ++ [b.cell]
    let lines := b.lines ++ [line]
    if ch = '\x0c' ∨ line.length = 1 then
      { output := b.output ++ flushLines lines, lines := [], line := [], cell := [] }
    else { b with lines := lines, line := [], cell := [] }
  else { b with cell := b.cell ++ [ch] }

/-- One call of `Writer.Write`. -/
def TabWriter.write (b : TabWriter) (text : String) : TabWriter :=
  text.data.foldl TabWriter.writeChar b

/-- `PrintReport(w, r)` as a step on the state it can touch: the text the
writer `w` has received and the report. The rows go to a new tab writer, and
`w` receives what the tab writer delivers (`PrintReport` does not call
`Flush`, so what the tab writer still buffers at the end is not delivered).
The report is only read. -/
def PrintReport (srt : Sorter) (w : List Char) (r : Report) : List Char × Report :=
  let tw := (reportRows srt r).foldl TabWriter.write TabWriter.new
  (w ++ tw.output, r)

/-- The row as the specification words it, to be compared with `formatRow`:
`<package-name>/<base-filename>:<line>\t<function-name>\t<percent>% (<reached>/<total>)`
and a newline, a single tab between the cells. -/
def claimedRow (pkgName : String) (fn : reportFunction) : String :=
  pkgName ++ "/" ++ filepathBase fn.toFunction.File ++ ":" ++ toString fn.toFunction.Line
    ++ "\t" ++ fn.toFunction.Name ++ "\t" ++ fmtFloat2 (stmtPercent fn) ++ "% ("
    ++ toString fn.statementsReached ++ "/" ++ toString fn.total ++ ")\n"

/-! ## Example data -/

/-- A function with the given name, file and line whose statements have the
reached counts given. -/
def mkFunction (name file : String) (line : Int) (reached : List Int) : Function :=
  { Name := name, File := file, Line := line,
    Statements := reached.map (fun c => { Reached := c }) }

/-- A function without statements. -/
def fnNone : Function := mkFunction "f0" "a.go" 1 []

/-- A function with 2 of its 4 statements reached. -/
def fnHalf : Function := mkFunction "f1" "a.go" 3 [1, 1, 0, 0]

/-- Two functions at 50%: one with 2 statements, one with 10. -/
def pkgTie : Package :=
  { Name := "pkg",
    Functions := [mkFunction "small" "a.go" 1 [1, 0],
                  mkFunction "big" "a.go" 9 [1, 1, 1, 1, 1, 0, 0, 0, 0, 0]] }

/-- The package of the scenario: `f1` with 2 of 4 statements reached and `f2`
with 3 of 3. -/
def pkgScenario : Package :=
  { Name := "pkg",
    Functions := [mkFunction "f1" "a.go" 3 [1, 1, 0, 0],
                  mkFunction "f2" "b.go" 5 [1, 2, 3]] }

/-- A package `a` with one function, none of its statements reached. -/
def pkgA : Package := { Name := "a", Functions := [mkFunction "f" "x.go" 1 [0]] }

/-- A package `b` with one function, fully reached. -/
def pkgB : Package := { Name := "b", Functions := [mkFunction "g" "y.go" 2 [1]] }

/-- Two functions with no statement reached: one without statements, one with
one statement. -/
def pkgZero : Package :=
  { Name := "pkg",
    Functions := [mkFunction "none" "a.go" 1 [], mkFunction "cold" "a.go" 7 [0]] }

/-! ## `Less` over exact ratios -/

/-- The comparison of `Less` read over exact ratios: the ratio is smaller, or
the ratios are equal and the statement count is smaller. -/
def exactLess (a b : reportFunction) : Prop :=
  exactRatio a < exactRatio b ∨ (exactRatio a = exactRatio b ∧ a.total < b.total)

instance (a b : reportFunction) : Decidable (exactLess a b) := by
  unfold exactLess; infer_instance

/-- A report function as `printPackage` can build one for a function of fewer
than `2^25` statements: the reached count is between 0 and the statement
count. -/
def InRange (a : reportFunction) : Prop :=
  0 ≤ a.statementsReached ∧ a.statementsReached ≤ (a.total : Int) ∧ a.total < 2 ^ 25

instance (a : reportFunction) : Decidable (InRange a) := by
  unfold InRange; infer_instance

/-! ## The report after a call -/

/-- The report as `AddPackage(p)` leaves it, with the value of the panic when
it panics: the panic is raised before any assignment to `r.packages`, so the
collection is then the one the call found. -/
def Report.afterAddPackage (r : Report) (p : Package) : Report × Option String :=
  match r.AddPackage p with
  | Except.ok r2 => (r2, none)
  | Except.error e => (r, some e)

/-! ## `PrintReport` on a store

The value-level `PrintReport` above cannot change the report by its shape. To
state what the code leaves unchanged, the same statements are read here as
steps on a store that holds everything they could write: the report with its
packages, functions and statements, the slice `functions` of the running
`printPackage`, and the writer. -/

/-- `reportFunctionList.Len()`. -/
def reportFunctionList.Len (l : List reportFunction) : Nat := l.length

/-- `reportFunctionList.Swap(i, j)`: `l[i], l[j] = l[j], l[i]`. (`sort.Sort`
swaps indices below `Len()`; with an index out of range, where Go panics, the
slice is left as it is.) -/
def reportFunctionList.Swap (l : List reportFunction) (i j : Nat) : List reportFunction :=
  match l[i]?, l[j]? with
  | some a, some b => (l.set i b).set j a
  | _, _ => l

/-- A run of `sort.Sort` as its argument sees it. `sort.Sort` reaches the data
through `Len`, `Less` and `Swap` only, so a run is the sequence of `Swap`
calls it makes, and that sequence is determined by the length and by the
answers of `Less` on the data it is given. -/
abbrev SwapPlan := Nat → (Nat → Nat → Bool) → List (Nat × Nat)

/-- The store `PrintReport` runs on. -/
structure Store where
  report : Report
  functions : List reportFunction
  w : Writer

/-- `sort.Sort(reverse{functions})` on the store: the `Swap` calls of the run
are applied to the slice `functions`. -/
def Store.sortSort (plan : SwapPlan) (st : Store) : Store :=
  let swaps := plan (reportFunctionList.Len st.functions)
    (fun i j => (reverse.Less st.functions i j).getD false)
  { st with
    functions := swaps.foldl (fun l ij => reportFunctionList.Swap l ij.1 ij.2) st.functions }

/-- `printPackage(w, pkg)` on the store, `pkg` being the package at index `k`
of the report: the slice `functions` is made and filled from `pkg.Functions`,
sorted in place, and one row per element is written; `pkg.Name` is read from
the store when the row is written. -/
def Store.printPackage (plan : SwapPlan) (k : Nat) (st : Store) : Store :=
  match st.report.packages[k]? with
  | none => st
  | some pkg =>
    let st1 : Store := { st with functions := reportFunctions pkg }
    let st2 := st1.sortSort plan
    let name := (st2.report.packages[k]?.map (fun q => q.Name)).getD ""
    { st2 with w := st2.functions.foldl (fun w fn => w ++ [formatRow name fn]) st2.w }

/-- The loop of `PrintReport` on the store: `range r.packages` visits the
indices below the length the collection has when the loop starts. -/
def Store.PrintReport (plan : SwapPlan) (st : Store) : Store :=
  (List.range st.report.packages.length).foldl
    (fun s k =>
      let s1 := s.printPackage plan k
      { s1 with w := s1.w ++ ["\n"] }) st

/-- The sorting procedure a run of swaps amounts to on values. -/
def sorterOfPlan (plan : SwapPlan) : Sorter := fun less l =>
  (plan l.length (fun i j =>
      match l[i]?, l[j]? with
      | some a, some b => less a b
      | _, _ => false)).foldl
    (fun l ij => reportFunctionList.Swap l ij.1 ij.2) l

/-- A run for two elements: one swap when the second is less than the first. -/
def twoPlan : SwapPlan := fun _ less => if less 1 0 then [(0, 1)] else []

/-! ## Columns of the delivered text -/

/-- The horizontal position reached after `text` from the position `col`, with
a tab stop every 8 positions and every other character one position wide, as
the tab writer assumes. -/
def displayWidth (col : Nat) (text : List Char) : Nat :=
  text.foldl (fun c ch => if ch = '\t' then (c / 8 + 1) * 8 else c + 1) col

/-- The characters that end a cell or a line for the tab writer: tab, vertical
tab, newline and form feed. -/
def isBreak (ch : Char) : Bool :=
  decide (ch = '\t') || decide (ch = '\x0b') || decide (ch = '\n') || decide (ch = '\x0c')

/-- A text without a character that ends a cell or a line. -/
def CleanChars (text : List Char) : Prop := ∀ ch ∈ text, isBreak ch = false

instance (text : List Char) : Decidable (CleanChars text) := by
  unfold CleanChars; infer_instance

/-- A package whose name, function names and file names have no character that
ends a cell or a line. The names are `String`s: they stand for Go strings
that are valid UTF-8, so they hold no byte `0xff` either. -/
def CleanPackage (pkg : Package) : Prop :=
  CleanChars pkg.Name.data ∧
    ∀ fn ∈ pkg.Functions, CleanChars fn.Name.data ∧ CleanChars fn.File.data

instance (pkg : Package) : Decidable (CleanPackage pkg) := by
  unfold CleanPackage; infer_instance

/-- The bytes of a character in UTF-8: one byte below `0x80`, else a leading
byte and one to three continuation bytes, each `0x80` plus six bits of the
code point. -/
def utf8Bytes (c : Char) : List Nat :=
  let v := c.toNat
  if v < 0x80 then [v]
  else if v < 0x800 then [0xc0 + v / 0x40, 0x80 + v % 0x40]
  else if v < 0x10000 then [0xe0 + v / 0x1000, 0x80 + v / 0x40 % 0x40, 0x80 + v % 0x40]
  else [0xf0 + v / 0x40000, 0x80 + v / 0x1000 % 0x40, 0x80 + v / 0x40 % 0x40, 0x80 + v % 0x40]

/-- The bytes of a text: the Go string, valid UTF-8, that the text stands for. -/
def goBytes (text : List Char) : List Nat := text.flatMap utf8Bytes

/-- The first cell of the row of a function: the text before the first tab. -/
def rowCell0 (pkgName : String) (fn : reportFunction) : List Char :=
  (pkgName ++ "/" ++ filepathBase fn.toFunction.File ++ ":"
    ++ toString fn.toFunction.Line).data

/-- The second cell of the row, the function-name cell: the text between the
two tabs. -/
def rowCell1 (fn : reportFunction) : List Char :=
  (" " ++ fn.toFunction.Name).data

/-- The last cell of the row, the percent cell: the text between the second
tab and the newline. -/
def rowCell2 (fn : reportFunction) : List Char :=
  (" " ++ fmtFloat2 (stmtPercent fn) ++ "% (" ++ toString fn.statementsReached ++ "/"
    ++ toString fn.total ++ ")").data

/-- The width of the first column of the block of a package: the largest width
of a first cell among its rows. -/
def blockWidth0 (srt : Sorter) (pkg : Package) : Nat :=
  (rankedFunctions srt pkg).foldl (fun w fn => max w (rowCell0 pkg.Name fn).length) 0

/-- The width of the second column of the block of a package. -/
def blockWidth1 (srt : Sorter) (pkg : Package) : Nat :=
  (rankedFunctions srt pkg).foldl (fun w fn => max w (rowCell1 fn).length) 0

/-- A function line as delivered in a block of column widths `w0` and `w1`:
each of the first two cells followed by its padding, the last cell, a
newline. -/
def alignedLine (w0 w1 : Nat) (pkgName : String) (fn : reportFunction) : List Char :=
  rowCell0 pkgName fn ++ cellPadding (rowCell0 pkgName fn).length w0
    ++ rowCell1 fn ++ cellPadding (rowCell1 fn).length w1 ++ rowCell2 fn ++ ['\n']

/-- The position at which the function-name cell starts on that line. -/
def nameColumn (w0 : Nat) (pkgName : String) (fn : reportFunction) : Nat :=
  displayWidth 0 (rowCell0 pkgName fn ++ cellPadding (rowCell0 pkgName fn).length w0)

/-- The position at which the percent cell starts on that line. -/
def percentColumn (w0 w1 : Nat) (pkgName : String) (fn : reportFunction) : Nat :=
  displayWidth 0 (rowCell0 pkgName fn ++ cellPadding (rowCell0 pkgName fn).length w0
    ++ rowCell1 fn ++ cellPadding (rowCell1 fn).length w1)

/-- The text delivered for a package: its function lines aligned on the widths
of its own block, and the blank line. -/
def alignedBlock (srt : Sorter) (pkg : Package) : List Char :=
  ((rankedFunctions srt pkg).map
      (alignedLine (blockWidth0 srt pkg) (blockWidth1 srt pkg) pkg.Name)).flatten ++ ['\n']

/-- A package whose first cells are 8 wide, next to the 10 of `pkgScenario`. -/
def pkgWide : Package :=
  { Name := "p",
    Functions := [mkFunction "f" "a.go" 1 [1], mkFunction "aLongFunctionName" "b.go" 2 [0]] }

/-- A package with a tab inside a function name. -/
def pkgTab : Package :=
  { Name := "p",
    Functions := [mkFunction "a" "a.go" 1 [1], mkFunction "b\tc" "a.go" 2 [0]] }

/-! ### What `AddPackage` computes -/

theorem ltChars_irrefl (cs : List Char) : ltChars cs cs = false := by
  induction cs with
  | nil => rfl
  | cons c cs ih => simp [ltChars, ih]

theorem strGE_self (a : String) : strGE a a = true := by
  simp [strGE, strLT, ltChars_irrefl]

theorem addPackagePred_of_lt (l : List Package) (i : Nat) (h : i < l.length) :
    addPackagePred l i = true := by
  simp [addPackagePred, List.getElem?_eq_getElem h, strGE_self]

/-- Iterations beyond `j - i` change nothing: the loop of `sort.Search` has
exited by then. -/
theorem sortSearchLoop_fuel (f : Nat → Bool) (fuel : Nat) :
    ∀ i j, j - i ≤ fuel → sortSearchLoop f (fuel + 1) i j = sortSearchLoop f fuel i j := by
  induction fuel with
  | zero =>
    intro i j h
    have : ¬ i < j := by omega
    simp [sortSearchLoop, this]
  | succ n ih =>
    intro i j h
    by_cases hij : i < j
    · have h1 : j - ((i + j) / 2 + 1) ≤ n := by omega
      have h2 : (i + j) / 2 - i ≤ n := by omega
      rw [sortSearchLoop, if_pos hij]
      conv_rhs => rw [sortSearchLoop, if_pos hij]
      simp only [ih _ _ h1, ih _ _ h2]
    · rw [sortSearchLoop, if_neg hij]
      conv_rhs => rw [sortSearchLoop, if_neg hij]

/-- The predicate of `AddPackage` holds at every index, so the binary search
never moves its lower end. -/
theorem sortSearchLoop_addPackagePred (l : List Package) (fuel : Nat) :
    ∀ j, j ≤ l.length → sortSearchLoop (addPackagePred l) fuel 0 j = 0 := by
  induction fuel with
  | zero => intro j _; rfl
  | succ n ih =>
    intro j hj
    by_cases h0 : 0 < j
    · have hlt : (0 + j) / 2 < l.length := by omega
      rw [sortSearchLoop, if_pos h0]
      simp only [addPackagePred_of_lt l _ hlt, Bool.not_true, Bool.false_eq_true, if_false]
      exact ih _ (by omega)
    · rw [sortSearchLoop, if_neg h0]

theorem sortSearch_addPackagePred (l : List Package) :
    sortSearch l.length (addPackagePred l) = 0 :=
  sortSearchLoop_addPackagePred l l.length l.length (Nat.le_refl _)

/-- `AddPackage` looks at the first package only: it panics when that one has
the new name, and otherwise puts the new package in front. -/
theorem AddPackage_eq (r : Report) (p : Package) :
    r.AddPackage p =
      if r.packages.head?.map (fun q => q.Name) = some p.Name then
        Except.error "package already exists: result merging not implemented yet"
      else Except.ok { packages := p :: r.packages } := by
  unfold Report.AddPackage
  simp only [sortSearch_addPackagePred]
  cases hl : r.packages with
  | nil => simp
  | cons q qs => simp

/-! ### The aggregator: ordering, duplicates, `Clear` -/

/-- C1, on the code. The specification asks that any run of successful
`AddPackage` calls leaves the packages sorted by name and free of duplicate names. The
calls `"a"`, `"b"` on a new report both succeed and leave `["b", "a"]`, which
is not sorted; the calls `"a"`, `"b"`, `"a"` all succeed and leave two
packages named `"a"`. -/
theorem C1_AddPackage_sequence_unsorted :
    (∃ r, addPackages NewReport [pkgNamed "a", pkgNamed "b"] = Except.ok r ∧
      r.names = ["b", "a"] ∧ ¬ SortedByName r.packages) ∧
    (∃ r, addPackages NewReport [pkgNamed "a", pkgNamed "b", pkgNamed "a"] = Except.ok r ∧
      r.names = ["a", "b", "a"] ∧ ¬ NoDupNames r.packages) := by
  refine ⟨⟨_, rfl, ?_, ?_⟩, ⟨_, rfl, ?_, ?_⟩⟩ <;> decide

/-- C2, on the code. The specification asks that `AddPackage(p)` signals the
duplicate whenever the name of `p` is held at any position. The report holding
`["a", "b"]` (built by the calls `"b"`, `"a"`) holds the name `"b"` at
index 1, and `AddPackage` of a package named `"b"` succeeds on it and changes
the collection to `["b", "a", "b"]`. -/
theorem C2_AddPackage_duplicate_not_first :
    ∃ r, addPackages NewReport [pkgNamed "b", pkgNamed "a"] = Except.ok r ∧
      r.names = ["a", "b"] ∧ (pkgNamed "b").Name ∈ r.names ∧
      ∃ r2, r.AddPackage (pkgNamed "b") = Except.ok r2 ∧ r2.names = ["b", "a", "b"] := by
  refine ⟨_, rfl, ?_, ?_, _, rfl, ?_⟩ <;> decide

/-- C3, on the code. The specification asks that a new name is inserted at the
index of the first package whose name is `>=` it. On the sorted report holding `["a"]`
that index is 1 for the name `"b"`, the end of the collection, and
`AddPackage` puts `"b"` at index 0 instead: the result is `["b", "a"]` and
not `["a", "b"]`. The order `"b"` then `"a"` of its scenario does give
`["a", "b"]`. -/
theorem C3_AddPackage_inserts_in_front :
    SortedByName [pkgNamed "a"] ∧ "b" ∉ Report.names { packages := [pkgNamed "a"] } ∧
    specInsertIndex [pkgNamed "a"] "b" = 1 ∧
    (∃ r, Report.AddPackage { packages := [pkgNamed "a"] } (pkgNamed "b") = Except.ok r ∧
      r.names = ["b", "a"] ∧
      r.packages ≠ [pkgNamed "a"].take 1 ++ [pkgNamed "b"] ++ [pkgNamed "a"].drop 1) ∧
    (∃ r, addPackages NewReport [pkgNamed "b", pkgNamed "a"] = Except.ok r ∧
      r.names = ["a", "b"]) := by
  refine ⟨?_, ?_, ?_, ⟨_, rfl, ?_, ?_⟩, ⟨_, rfl, ?_⟩⟩ <;> decide

/-- C6: whatever packages a report holds, after `Clear` its collection is
empty, of length zero; `Clear` has no failing outcome, and the cleared report
is the report `NewReport` creates. -/
theorem C6_Clear_empties (r : Report) :
    r.Clear.packages = [] ∧ r.Clear.packages.length = 0 ∧ r.Clear = NewReport :=
  ⟨rfl, rfl, rfl⟩

/-! ### float64: the rounding never loses a nonzero quotient -/

theorem bitLenAux_spec : ∀ fuel n, n ≤ fuel →
    n < 2 ^ bitLenAux fuel n ∧ (0 < n → 2 ^ (bitLenAux fuel n - 1) ≤ n) := by
  intro fuel
  induction fuel with
  | zero =>
    intro n hn
    have : n = 0 := by omega
    subst this
    simp [bitLenAux]
  | succ f ih =>
    intro n hn
    by_cases h0 : n = 0
    · subst h0; simp [bitLenAux]
    · have hle : n / 2 ≤ f := by omega
      obtain ⟨hup, hlow⟩ := ih (n / 2) hle
      rw [bitLenAux, if_neg h0]
      constructor
      · rw [pow_succ]; omega
      · intro _
        simp only [Nat.add_sub_cancel]
        by_cases h2 : n / 2 = 0
        · have : n = 1 := by omega
          subst this
          simp [bitLenAux]
          cases f <;> simp [bitLenAux]
        · have hpos : 0 < n / 2 := by omega
          have hl := hlow hpos
          have hb : 0 < bitLenAux f (n / 2) := by
            rcases Nat.eq_zero_or_pos (bitLenAux f (n / 2)) with hz | hp
            · rw [hz] at hup; omega
            · exact hp
          have : 2 ^ bitLenAux f (n / 2) = 2 * 2 ^ (bitLenAux f (n / 2) - 1) := by
            rw [← pow_succ']; congr 1; omega
          omega

/-- A number is below `2^bitLen`, and a positive one is at least `2^(bitLen - 1)`. -/
theorem bitLen_spec (n : Nat) :
    n < 2 ^ bitLen n ∧ (0 < n → 2 ^ (bitLen n - 1) ≤ n) :=
  bitLenAux_spec n n (Nat.le_refl n)

theorem roundHalfEven_ge (n d : Nat) : n / d ≤ roundHalfEven n d := by
  unfold roundHalfEven
  simp only
  split_ifs <;> omega

theorem roundHalfEven_le (n d : Nat) : roundHalfEven n d ≤ n / d + 1 := by
  unfold roundHalfEven
  simp only
  split_ifs <;> omega

/-- The power of two that `roundNE` rounds to does not exceed the quotient. -/
theorem roundNE_shift_le (q : Nat) (hq : 0 < q) : 2 ^ (bitLen q - 53) ≤ q :=
  le_trans (Nat.pow_le_pow_right (by norm_num) (by omega)) ((bitLen_spec q).2 hq)

theorem roundNE_pos (n d : Nat) (hd : 0 < d) (hn : d ≤ n) : 0 < roundNE n d := by
  unfold roundNE
  simp only
  have hq : 0 < n / d := Nat.div_pos hn hd
  have hs := roundNE_shift_le (n / d) hq
  have h2 : 0 < 2 ^ (bitLen (n / d) - 53) := Nat.pos_pow_of_pos _ (by norm_num)
  have hD : d * 2 ^ (bitLen (n / d) - 53) ≤ n :=
    le_trans (Nat.mul_le_mul_left d hs) (Nat.mul_div_le n d)
  have h1 : 0 < n / (d * 2 ^ (bitLen (n / d) - 53)) :=
    Nat.div_pos hD (Nat.mul_pos hd h2)
  exact Nat.mul_pos (lt_of_lt_of_le h1 (roundHalfEven_ge _ _)) h2

theorem f64Scale_pos : 0 < f64Scale := by
  unfold f64Scale; positivity

/-- The conversion of a positive statement count is a nonzero finite value. -/
theorem ofInt_total_fin (t : Nat) (ht : 0 < t) :
    ∃ b : Int, b ≠ 0 ∧ F64.ofInt (t : Int) = F64.fin b := by
  refine ⟨_, ?_, rfl⟩
  have hs : (t : Int).sign = 1 := Int.sign_eq_one_of_pos (by exact_mod_cast ht)
  have hp : 0 < roundNE ((t : Int).natAbs * f64Scale) 1 := by
    apply roundNE_pos _ _ Nat.one_pos
    simp only [Int.natAbs_ofNat]
    exact Nat.mul_pos ht f64Scale_pos
  rw [hs, one_mul]
  exact_mod_cast hp.ne'

/-- `Less` never compares a NaN or an infinity: the quotient is only formed
when the statement count is positive. -/
theorem coverage_eq_fin (a : reportFunction) : coverage a = F64.fin (covKey a) := by
  have h : ∃ k, coverage a = F64.fin k := by
    unfold coverage
    by_cases ht : a.total > 0
    · obtain ⟨b, hb, hbe⟩ := ofInt_total_fin a.total ht
      rw [if_pos ht, hbe]
      simp only [F64.ofInt, F64.div, if_neg hb]
      exact ⟨_, rfl⟩
    · rw [if_neg ht]; exact ⟨0, rfl⟩
  obtain ⟨k, hk⟩ := h
  simp [covKey, hk]

/-- `Less` is the lexicographic order on the pair (coverage, statement count). -/
theorem lessFn_iff (a b : reportFunction) :
    lessFn a b = true ↔
      covKey a < covKey b ∨ (covKey a = covKey b ∧ a.total < b.total) := by
  unfold lessFn
  simp only [coverage_eq_fin, F64.lt, F64.eq]
  by_cases h : covKey a < covKey b
  · simp [h]
  · simp [h]

theorem lessFn_eq_false_iff (a b : reportFunction) :
    lessFn a b = false ↔
      covKey b < covKey a ∨ (covKey a = covKey b ∧ b.total ≤ a.total) := by
  rw [← Bool.not_eq_true, lessFn_iff]
  constructor
  · intro h
    rcases lt_trichotomy (covKey a) (covKey b) with h1 | h1 | h1
    · exact absurd (Or.inl h1) h
    · right
      refine ⟨h1, ?_⟩
      by_contra hc
      exact h (Or.inr ⟨h1, by omega⟩)
    · exact Or.inl h1
  · rintro (h | ⟨h1, h2⟩) (h3 | ⟨h3, h4⟩) <;> omega

/-- The comparison `Less` is a strict weak ordering. -/
theorem lessFn_strictWeak : IsStrictWeak lessFn := by
  refine ⟨?_, ?_, ?_⟩
  · intro a
    rw [lessFn_eq_false_iff]
    exact Or.inr ⟨rfl, Nat.le_refl _⟩
  · intro a b c
    simp only [lessFn_iff]
    rintro (h | ⟨h1, h2⟩) (h3 | ⟨h3, h4⟩)
    · left; omega
    · left; omega
    · left; omega
    · right; exact ⟨by omega, by omega⟩
  · intro a b c
    simp only [lessFn_eq_false_iff]
    rintro (h | ⟨h1, h2⟩) (h3 | ⟨h3, h4⟩)
    · left; omega
    · left; omega
    · left; omega
    · right; exact ⟨by omega, by omega⟩

/-- The reversed comparison is a strict weak ordering as well. -/
theorem reverseLessFn_strictWeak : IsStrictWeak reverseLessFn := by
  obtain ⟨h1, h2, h3⟩ := lessFn_strictWeak
  exact ⟨fun a => h1 a, fun a b c hab hbc => h2 c b a hbc hab,
    fun a b c hab hbc => h3 c b a hbc hab⟩

/-! ### The insertion sort meets the contract of `sort.Sort` -/

theorem insertSorted_perm (less : reportFunction → reportFunction → Bool)
    (a : reportFunction) (l : List reportFunction) : (insertSorted less a l).Perm (a :: l) := by
  induction l with
  | nil => exact List.Perm.refl _
  | cons b l ih =>
    unfold insertSorted
    split_ifs
    · exact (ih.cons b).trans (List.Perm.swap a b l)
    · exact List.Perm.refl _

theorem insertSorted_pairwise (less : reportFunction → reportFunction → Bool)
    (hw : IsStrictWeak less) (a : reportFunction) (l : List reportFunction)
    (hl : l.Pairwise (fun x y => less y x = false)) :
    (insertSorted less a l).Pairwise (fun x y => less y x = false) := by
  obtain ⟨hirr, htr, hneg⟩ := hw
  induction l with
  | nil => simp [insertSorted]
  | cons b l ih =>
    rw [List.pairwise_cons] at hl
    unfold insertSorted
    split_ifs with hba
    · rw [List.pairwise_cons]
      refine ⟨?_, ih hl.2⟩
      intro y hy
      rcases (List.mem_cons.mp ((insertSorted_perm less a l).subset hy)) with rfl | hy
      · by_contra hc
        have := htr _ _ _ hba (by simpa using hc)
        rw [hirr] at this
        exact Bool.false_ne_true this
      · exact hl.1 y hy
    · have hba2 : less b a = false := by simpa using hba
      rw [List.pairwise_cons]
      refine ⟨?_, List.pairwise_cons.mpr hl⟩
      intro y hy
      rcases List.mem_cons.mp hy with rfl | hy
      · exact hba2
      · exact hneg _ _ _ (hl.1 y hy) hba2

/-- The insertion sort returns a permutation in ascending order: `SortContract`
is met by an executable procedure. -/
theorem insertionSorter_contract : SortContract insertionSorter := by
  intro less l hw
  induction l with
  | nil => exact ⟨List.Perm.refl _, List.Pairwise.nil⟩
  | cons a l ih =>
    constructor
    · exact (insertSorted_perm less a _).trans (ih.1.cons a)
    · exact insertSorted_pairwise less hw a _ ih.2

/-! ### float64: the rounding error -/

theorem roundHalfEven_bounds (n d : Nat) (hd : 0 < d) :
    2 * (roundHalfEven n d * d) ≤ 2 * n + d ∧ 2 * n ≤ 2 * (roundHalfEven n d * d) + d := by
  have hdm := Nat.div_add_mod n d
  have hr := Nat.mod_lt n hd
  unfold roundHalfEven
  simp only
  generalize n / d = q at *
  generalize n % d = r at *
  subst hdm
  split_ifs <;> constructor <;> nlinarith

/-- Rounding to the nearest integer is off by at most one half. -/
theorem roundHalfEven_err (n d : Nat) (hd : 0 < d) :
    |(roundHalfEven n d : ℚ) - (n : ℚ) / (d : ℚ)| ≤ 1 / 2 := by
  obtain ⟨h1, h2⟩ := roundHalfEven_bounds n d hd
  have hdq : (0 : ℚ) < (d : ℚ) := by exact_mod_cast hd
  have h1q : (2 : ℚ) * ((roundHalfEven n d : ℚ) * d) ≤ 2 * n + d := by exact_mod_cast h1
  have h2q : (2 : ℚ) * n ≤ 2 * ((roundHalfEven n d : ℚ) * d) + d := by exact_mod_cast h2
  have he : (roundHalfEven n d : ℚ) - (n : ℚ) / (d : ℚ)
      = ((roundHalfEven n d : ℚ) * d - n) / d := by
    field_simp
  rw [he, abs_le]
  constructor
  · rw [le_div_iff₀ hdq]; linarith
  · rw [div_le_iff₀ hdq]; linarith

/-- The error of `roundNE`: at most half a unit where no binary digit is
dropped, and at most the fraction `2^-53` of the exact quotient where some
are. -/
theorem roundNE_err (n d : Nat) (hd : 0 < d) :
    |(roundNE n d : ℚ) - (n : ℚ) / (d : ℚ)| ≤ (n : ℚ) / (d : ℚ) / 2 ^ 53 + 1 / 2 := by
  have hdq : (0 : ℚ) < (d : ℚ) := by exact_mod_cast hd
  have hx : (0 : ℚ) ≤ (n : ℚ) / (d : ℚ) := by positivity
  unfold roundNE
  simp only
  generalize hs : bitLen (n / d) - 53 = s
  have h2 : (0 : ℚ) < (2 : ℚ) ^ s := by positivity
  have hD : 0 < d * 2 ^ s := Nat.mul_pos hd (Nat.two_pow_pos s)
  have herr := roundHalfEven_err n (d * 2 ^ s) hD
  have hcast : ((d * 2 ^ s : Nat) : ℚ) = (d : ℚ) * 2 ^ s := by push_cast; ring
  rw [hcast] at herr
  have hsplit : ((roundHalfEven n (d * 2 ^ s) * 2 ^ s : Nat) : ℚ) - (n : ℚ) / (d : ℚ)
      = ((roundHalfEven n (d * 2 ^ s) : ℚ) - (n : ℚ) / ((d : ℚ) * 2 ^ s)) * 2 ^ s := by
    push_cast
    field_simp
    ring
  rw [hsplit, abs_mul, abs_of_pos h2]
  have hb : |(roundHalfEven n (d * 2 ^ s) : ℚ) - (n : ℚ) / ((d : ℚ) * 2 ^ s)| * 2 ^ s
      ≤ 1 / 2 * 2 ^ s := mul_le_mul_of_nonneg_right herr h2.le
  refine le_trans hb ?_
  rcases Nat.eq_zero_or_pos s with h0 | hpos
  · subst h0
    simp only [pow_zero, mul_one]
    linarith
  · -- some digits are dropped: the quotient is at least `2^(s+52)`
    have hq : 0 < n / d := by
      rcases Nat.eq_zero_or_pos (n / d) with hz | hp
      · rw [hz] at hs
        have : bitLen 0 = 0 := by decide
        rw [this] at hs
        omega
      · exact hp
    have hlow := (bitLen_spec (n / d)).2 hq
    have hexp : s + 52 = bitLen (n / d) - 1 := by omega
    rw [← hexp] at hlow
    have hle : 2 ^ (s + 52) * d ≤ n :=
      le_trans (Nat.mul_le_mul_right d hlow) (Nat.div_mul_le_self n d)
    have hleq : (2 : ℚ) ^ (s + 52) * (d : ℚ) ≤ (n : ℚ) := by exact_mod_cast hle
    have hxl : (2 : ℚ) ^ (s + 52) ≤ (n : ℚ) / (d : ℚ) := by
      rw [le_div_iff₀ hdq]; exact hleq
    have hpow : (1 : ℚ) / 2 * 2 ^ s = 2 ^ (s + 52) / 2 ^ 53 := by
      rw [pow_add]; ring
    rw [hpow]
    have : (2 : ℚ) ^ (s + 52) / 2 ^ 53 ≤ (n : ℚ) / (d : ℚ) / 2 ^ 53 := by
      apply div_le_div_of_nonneg_right hxl (by positivity)
    linarith

/-- A converted integer is off by at most the fraction `2^-53` of itself. -/
theorem roundNE_int_err (n : Nat) :
    |(roundNE n 1 : ℚ) - (n : ℚ)| ≤ (n : ℚ) / 2 ^ 53 := by
  rcases Nat.eq_zero_or_pos (bitLen (n / 1) - 53) with h0 | hpos
  · have hval : roundNE n 1 = n := by
      unfold roundNE
      simp only [h0]
      simp [roundHalfEven, Nat.mod_one]
    rw [hval]
    simp only [sub_self, abs_zero]
    positivity
  · have hq : 0 < n := by
      rcases Nat.eq_zero_or_pos n with hz | hp
      · subst hz
        have : bitLen 0 = 0 := by decide
        simp [this] at hpos
      · exact hp
    have hlow := (bitLen_spec (n / 1)).2 (by simpa using hq)
    rw [Nat.div_one] at hlow hpos
    have hb : (2 : ℚ) ^ (bitLen n - 1) ≤ (n : ℚ) := by exact_mod_cast hlow
    have herr : |(roundNE n 1 : ℚ) - (n : ℚ)| ≤ 1 / 2 * 2 ^ (bitLen n - 53) := by
      have hD : 0 < 1 * 2 ^ (bitLen n - 53) := Nat.mul_pos Nat.one_pos (Nat.two_pow_pos _)
      have h := roundHalfEven_err n (1 * 2 ^ (bitLen n - 53)) hD
      have h2 : (0 : ℚ) < (2 : ℚ) ^ (bitLen n - 53) := by positivity
      have hsplit : (roundNE n 1 : ℚ) - (n : ℚ)
          = ((roundHalfEven n (1 * 2 ^ (bitLen n - 53)) : ℚ)
              - (n : ℚ) / ((1 * 2 ^ (bitLen n - 53) : Nat) : ℚ)) * 2 ^ (bitLen n - 53) := by
        unfold roundNE
        simp only [Nat.div_one]
        push_cast
        field_simp
      rw [hsplit, abs_mul, abs_of_pos h2]
      exact mul_le_mul_of_nonneg_right h h2.le
    have hpow : (1 : ℚ) / 2 * 2 ^ (bitLen n - 53) = 2 ^ (bitLen n - 1) / 2 ^ 53 := by
      have : bitLen n - 1 = (bitLen n - 53) + 52 := by omega
      rw [this, pow_add]; ring
    rw [hpow] at herr
    exact le_trans herr (div_le_div_of_nonneg_right hb (by positivity))

/-- The chain of roundings of `stmtPercent`, on values: two conversions, a
quotient and a product by 100, each with the relative error `2^-53` and the
last two with an absolute error `σ` besides, stay within `2^-44` of the exact
percentage. -/
theorem percent_chain (R T va vb vc ve σ : ℚ) (hT : 0 < T) (hR0 : 0 ≤ R) (hRT : R ≤ T)
    (ha : |va - R| ≤ R / 2 ^ 53) (hb : |vb - T| ≤ T / 2 ^ 53)
    (hc : |vc - va / vb| ≤ va / vb / 2 ^ 53 + σ)
    (he : |ve - 100 * vc| ≤ 100 * vc / 2 ^ 53 + σ)
    (hσ : σ ≤ 1 / 2 ^ 100) :
    |ve - 100 * R / T| ≤ 1 / 2 ^ 44 := by
  rw [abs_le] at ha hb hc he
  have hvb : (0 : ℚ) < vb := by
    have : T / 2 ^ 53 ≤ T / 2 := by
      apply div_le_div_of_nonneg_left hT.le (by norm_num) (by norm_num)
    linarith [hb.1]
  have hva : (0 : ℚ) ≤ va := by
    have : R / 2 ^ 53 ≤ R := div_le_self hR0 (by norm_num)
    linarith [ha.1]
  have hu0 : 0 ≤ R / T := div_nonneg hR0 hT.le
  have hu1 : R / T ≤ 1 := (div_le_one hT).mpr hRT
  have hden1 : (0 : ℚ) < (1 - 1 / 2 ^ 53) * T := mul_pos (by norm_num) hT
  have hup : va / vb ≤ ((1 + 1 / 2 ^ 53) * R) / ((1 - 1 / 2 ^ 53) * T) := by
    apply div_le_div₀ (by positivity) (by linarith [ha.2]) hden1 (by linarith [hb.1])
  have hlo : ((1 - 1 / 2 ^ 53) * R) / ((1 + 1 / 2 ^ 53) * T) ≤ va / vb := by
    apply div_le_div₀ hva (by linarith [ha.1]) hvb (by linarith [hb.2])
  have hup2 : ((1 + 1 / 2 ^ 53) * R) / ((1 - 1 / 2 ^ 53) * T)
      = ((1 + 1 / 2 ^ 53) / (1 - 1 / 2 ^ 53)) * (R / T) := by
    field_simp
  have hlo2 : ((1 - 1 / 2 ^ 53) * R) / ((1 + 1 / 2 ^ 53) * T)
      = ((1 - 1 / 2 ^ 53) / (1 + 1 / 2 ^ 53)) * (R / T) := by
    field_simp
  rw [hup2] at hup
  rw [hlo2] at hlo
  have hgoal : 100 * R / T = 100 * (R / T) := by ring
  rw [hgoal]
  generalize R / T = u at *
  generalize va / vb = w at *
  norm_num at hup hlo hc he hσ ⊢
  rw [abs_le]
  constructor <;> linarith [hc.1, hc.2, he.1, he.2]

/-! ### float64: the percentage of `printPackage` -/

theorem roundNE_zero (d : Nat) (hd : 0 < d) : roundNE 0 d = 0 := by
  have hb : bitLen 0 = 0 := by decide
  unfold roundNE
  simp [hb, roundHalfEven, hd]

theorem ofInt_natCast (r : Nat) :
    F64.ofInt (r : Int) = F64.fin ((roundNE (r * f64Scale) 1 : Nat) : Int) := by
  unfold F64.ofInt
  rcases Nat.eq_zero_or_pos r with h0 | hp
  · subst h0
    simp [roundNE_zero]
  · have hs : (r : Int).sign = 1 := Int.sign_eq_one_of_pos (by exact_mod_cast hp)
    rw [hs, one_mul, Int.natAbs_ofNat]

theorem div_natCast (a b : Nat) (hb : 0 < b) :
    F64.div (F64.fin (a : Int)) (F64.fin (b : Int))
      = F64.fin ((roundNE (a * f64Scale) b : Nat) : Int) := by
  have hb0 : (b : Int) ≠ 0 := by exact_mod_cast hb.ne'
  have hsb : (b : Int).sign = 1 := Int.sign_eq_one_of_pos (by exact_mod_cast hb)
  unfold F64.div
  simp only [if_neg hb0, hsb, mul_one, Int.natAbs_ofNat]
  rcases Nat.eq_zero_or_pos a with h0 | hp
  · subst h0
    simp [roundNE_zero _ hb]
  · have hs : (a : Int).sign = 1 := Int.sign_eq_one_of_pos (by exact_mod_cast hp)
    rw [hs, one_mul]

theorem mul_natCast (a b : Nat) :
    F64.mul (F64.fin (a : Int)) (F64.fin (b : Int))
      = F64.fin ((roundNE (a * b) f64Scale : Nat) : Int) := by
  unfold F64.mul
  simp only [Int.natAbs_ofNat]
  rcases Nat.eq_zero_or_pos a with h0 | hp
  · subst h0
    simp [roundNE_zero _ f64Scale_pos]
  · rcases Nat.eq_zero_or_pos b with h0 | hq
    · subst h0
      simp [roundNE_zero _ f64Scale_pos]
    · have hs : (a : Int).sign = 1 := Int.sign_eq_one_of_pos (by exact_mod_cast hp)
      have ht : (b : Int).sign = 1 := Int.sign_eq_one_of_pos (by exact_mod_cast hq)
      rw [hs, ht, one_mul, one_mul]

/-- The constant 100 converts exactly. -/
theorem roundNE_hundred : roundNE (100 * f64Scale) 1 = 100 * f64Scale := by decide!

theorem f64Scale_ge : 2 ^ 100 ≤ f64Scale := by
  unfold f64Scale
  apply Nat.pow_le_pow_right <;> norm_num

/-- The units of `stmtPercent` for `r` reached statements out of `t`. -/
theorem stmtPercent_units (rf : reportFunction) (r : Nat) (hr : rf.statementsReached = (r : Int))
    (ht : 0 < rf.total) :
    stmtPercent rf = F64.fin ((roundNE (roundNE (roundNE (r * f64Scale) 1 * f64Scale)
      (roundNE (rf.total * f64Scale) 1) * (100 * f64Scale)) f64Scale : Nat) : Int) := by
  have hbpos : 0 < roundNE (rf.total * f64Scale) 1 :=
    roundNE_pos _ _ Nat.one_pos (Nat.mul_pos ht f64Scale_pos)
  have h100 : F64.ofInt 100 = F64.fin ((roundNE (100 * f64Scale) 1 : Nat) : Int) :=
    ofInt_natCast 100
  unfold stmtPercent
  rw [if_pos ht, hr, ofInt_natCast, ofInt_natCast, h100, div_natCast _ _ hbpos, mul_natCast,
    roundNE_hundred]

theorem abs_sub_div_le (x y z c : ℚ) (hc : 0 < c) (h : |x - y| ≤ z) :
    |x / c - y / c| ≤ z / c := by
  rw [← sub_div, abs_div, abs_of_pos hc]
  exact div_le_div_of_nonneg_right h hc.le

/-- The `float64` percentage is within `2^-44` of the exact percentage. -/
theorem stmtPercent_value (r t : Nat) (ht : 0 < t) (hrt : r ≤ t) :
    |((roundNE (roundNE (roundNE (r * f64Scale) 1 * f64Scale)
        (roundNE (t * f64Scale) 1) * (100 * f64Scale)) f64Scale : Nat) : ℚ) / (f64Scale : ℚ)
      - 100 * (r : ℚ) / (t : ℚ)| ≤ 1 / 2 ^ 44 := by
  have hS : (0 : ℚ) < (f64Scale : ℚ) := by exact_mod_cast f64Scale_pos
  have hSge : (2 : ℚ) ^ 100 ≤ (f64Scale : ℚ) := by exact_mod_cast f64Scale_ge
  generalize ha : roundNE (r * f64Scale) 1 = a
  generalize hb : roundNE (t * f64Scale) 1 = b
  generalize hc : roundNE (a * f64Scale) b = c
  generalize he : roundNE (c * (100 * f64Scale)) f64Scale = e
  have hbpos : 0 < b := by
    rw [← hb]; exact roundNE_pos _ _ Nat.one_pos (Nat.mul_pos ht f64Scale_pos)
  have hbq : (0 : ℚ) < (b : ℚ) := by exact_mod_cast hbpos
  have h1 := roundNE_int_err (r * f64Scale)
  have h2 := roundNE_int_err (t * f64Scale)
  have h3 := roundNE_err (a * f64Scale) b hbpos
  have h4 := roundNE_err (c * (100 * f64Scale)) f64Scale f64Scale_pos
  rw [ha] at h1
  rw [hb] at h2
  rw [hc] at h3
  rw [he] at h4
  push_cast at h1 h2 h3 h4
  apply percent_chain (r : ℚ) (t : ℚ) ((a : ℚ) / f64Scale) ((b : ℚ) / f64Scale)
    ((c : ℚ) / f64Scale) ((e : ℚ) / f64Scale) (1 / 2 / f64Scale)
  · exact_mod_cast ht
  · positivity
  · exact_mod_cast hrt
  · have := abs_sub_div_le _ _ _ _ hS h1
    have e1 : (r : ℚ) * f64Scale / f64Scale = r := by field_simp
    have e2 : (r : ℚ) * f64Scale / 2 ^ 53 / f64Scale = r / 2 ^ 53 := by
      field_simp; ring
    rwa [e1, e2] at this
  · have := abs_sub_div_le _ _ _ _ hS h2
    have e1 : (t : ℚ) * f64Scale / f64Scale = t := by field_simp
    have e2 : (t : ℚ) * f64Scale / 2 ^ 53 / f64Scale = t / 2 ^ 53 := by
      field_simp; ring
    rwa [e1, e2] at this
  · have := abs_sub_div_le _ _ _ _ hS h3
    have e1 : (a : ℚ) * f64Scale / b / f64Scale = (a : ℚ) / f64Scale / ((b : ℚ) / f64Scale) := by
      field_simp; ring
    have e2 : ((a : ℚ) * f64Scale / b / 2 ^ 53 + 1 / 2) / f64Scale
        = (a : ℚ) / f64Scale / ((b : ℚ) / f64Scale) / 2 ^ 53 + 1 / 2 / f64Scale := by
      field_simp; ring
    rwa [e1, e2] at this
  · have := abs_sub_div_le _ _ _ _ hS h4
    have e1 : (c : ℚ) * (100 * f64Scale) / f64Scale / f64Scale = 100 * ((c : ℚ) / f64Scale) := by
      field_simp; ring
    have e2 : ((c : ℚ) * (100 * f64Scale) / f64Scale / 2 ^ 53 + 1 / 2) / f64Scale
        = 100 * ((c : ℚ) / f64Scale) / 2 ^ 53 + 1 / 2 / f64Scale := by
      field_simp; ring
    rwa [e1, e2] at this
  · rw [div_div, div_le_div_iff₀ (by positivity) (by positivity)]
    linarith

/-- The two-decimal numeral printed for a finite value is within `1/200` of it. -/
theorem fmtFloat2_value (e : Nat) :
    |(roundHalfEven (e * 100) f64Scale : ℚ) / 100 - (e : ℚ) / (f64Scale : ℚ)| ≤ 1 / 200 := by
  have hS : (0 : ℚ) < (f64Scale : ℚ) := by exact_mod_cast f64Scale_pos
  have h := roundHalfEven_err (e * 100) f64Scale f64Scale_pos
  push_cast at h
  have := abs_sub_div_le _ _ _ 100 (by norm_num) h
  have e1 : (e : ℚ) * 100 / f64Scale / 100 = (e : ℚ) / f64Scale := by
      field_simp; ring
  rw [e1] at this
  calc |(roundHalfEven (e * 100) f64Scale : ℚ) / 100 - (e : ℚ) / (f64Scale : ℚ)|
      ≤ 1 / 2 / 100 := this
    _ = 1 / 200 := by norm_num

/-- The loop of `printPackage` counts the statements with a positive reached
count. -/
theorem countReached_eq (fn : Function) :
    countReached fn = ((fn.Statements.countP (fun st => decide (st.Reached > 0)) : Nat) : Int) := by
  unfold countReached
  have h : ∀ (l : List Statement) (acc : Int),
      l.foldl (fun reached stmt => if stmt.Reached > 0 then reached + 1 else reached) acc
        = acc + ((l.countP (fun st => decide (st.Reached > 0)) : Nat) : Int) := by
    intro l
    induction l with
    | nil => intro acc; simp
    | cons st l ih =>
      intro acc
      rw [List.foldl_cons, ih, List.countP_cons]
      by_cases hst : st.Reached > 0
      · simp [hst]; ring
      · simp [hst]
  rw [h]; simp

/-! ### float64: the quotient of small counts orders as the exact ratio -/

theorem roundHalfEven_mul_right (n d k : Nat) (hk : 0 < k) :
    roundHalfEven (n * k) (d * k) = roundHalfEven n d := by
  unfold roundHalfEven
  simp only [Nat.mul_div_mul_right n d hk, Nat.mul_mod_mul_right]
  have h1 : 2 * (n % d * k) < d * k ↔ 2 * (n % d) < d := by
    rw [← Nat.mul_assoc]; exact Nat.mul_lt_mul_right hk
  have h2 : d * k < 2 * (n % d * k) ↔ d < 2 * (n % d) := by
    rw [← Nat.mul_assoc]; exact Nat.mul_lt_mul_right hk
  simp only [h1, h2]

/-- The rounded quotient depends on the quotient only. -/
theorem roundNE_mul_right (n d k : Nat) (hk : 0 < k) :
    roundNE (n * k) (d * k) = roundNE n d := by
  unfold roundNE
  simp only [Nat.mul_div_mul_right n d hk]
  have : d * k * 2 ^ (bitLen (n / d) - 53) = d * 2 ^ (bitLen (n / d) - 53) * k := by ring
  rw [this, roundHalfEven_mul_right _ _ _ hk]

theorem roundNE_pow_exact (n k : Nat) (hn : n < 2 ^ 53) :
    roundNE (n * 2 ^ k) 1 = n * 2 ^ k := by
  rcases Nat.eq_zero_or_pos n with h0 | hpos
  · subst h0
    rw [Nat.zero_mul]
    exact roundNE_zero 1 Nat.one_pos
  · have hm : 0 < n * 2 ^ k := Nat.mul_pos hpos (Nat.two_pow_pos k)
    have hlow := (bitLen_spec (n * 2 ^ k)).2 hm
    have hup : n * 2 ^ k < 2 ^ (53 + k) := by
      rw [pow_add]
      exact Nat.mul_lt_mul_of_pos_right hn (Nat.two_pow_pos k)
    have hlt : bitLen (n * 2 ^ k) - 1 < 53 + k :=
      (Nat.pow_lt_pow_iff_right (by norm_num : 1 < 2)).mp (lt_of_le_of_lt hlow hup)
    have hs : bitLen (n * 2 ^ k) - 53 ≤ k := by omega
    have hdvd : 2 ^ (bitLen (n * 2 ^ k) - 53) ∣ n * 2 ^ k :=
      Dvd.dvd.mul_left (Nat.pow_dvd_pow 2 hs) n
    have hp : 0 < 2 ^ (bitLen (n * 2 ^ k) - 53) := Nat.two_pow_pos _
    unfold roundNE
    simp only [Nat.div_one, Nat.one_mul]
    generalize 2 ^ (bitLen (n * 2 ^ k) - 53) = p at hdvd hp
    generalize n * 2 ^ k = m at hdvd
    obtain ⟨c, hc⟩ := hdvd
    have hmod : m % p = 0 := by rw [hc]; exact Nat.mul_mod_right p c
    have hdiv : m / p = c := by rw [hc]; exact Nat.mul_div_cancel_left c hp
    unfold roundHalfEven
    simp only [hmod, hdiv, Nat.mul_zero, hp, if_true]
    rw [hc]; ring

theorem f64Scale_eq : f64Scale = 2 ^ 1074 := by
  rw [f64Scale]

/-- An integer below `2^53` converts exactly. -/
theorem roundNE_int_exact (n : Nat) (hn : n < 2 ^ 53) :
    roundNE (n * f64Scale) 1 = n * f64Scale := by
  rw [f64Scale_eq]
  exact roundNE_pow_exact n 1074 hn

/-- The units of `coverage` for counts below `2^53`: the rounded quotient of the
counts. -/
theorem covKey_small (a : reportFunction) (r : Nat) (hr : a.statementsReached = (r : Int))
    (hr53 : r < 2 ^ 53) (ht : 0 < a.total) (ht53 : a.total < 2 ^ 53) :
    covKey a = ((roundNE (r * f64Scale) a.total : Nat) : Int) := by
  have hbpos : 0 < a.total * f64Scale := Nat.mul_pos ht f64Scale_pos
  have hc : coverage a = F64.fin ((roundNE (r * f64Scale) a.total : Nat) : Int) := by
    unfold coverage
    rw [if_pos ht, hr, ofInt_natCast, ofInt_natCast, roundNE_int_exact r hr53,
      roundNE_int_exact a.total ht53, div_natCast _ _ hbpos,
      roundNE_mul_right _ _ _ f64Scale_pos]
  have := coverage_eq_fin a
  rw [hc] at this
  injection this with h
  exact h.symm

/-- Rounded quotients of small counts keep the strict order of the exact
quotients: two different quotients with denominators below `2^25` are more
than `2^-50` apart, and the rounding moves each by less than `2^-52`. -/
theorem roundNE_lt_of_ratio_lt (n1 d1 n2 d2 : Nat) (h1 : 0 < d1) (h2 : 0 < d2)
    (hd1 : d1 < 2 ^ 25) (hd2 : d2 < 2 ^ 25) (hn1 : n1 ≤ d1) (hn2 : n2 ≤ d2)
    (hlt : (n1 : ℚ) / (d1 : ℚ) < (n2 : ℚ) / (d2 : ℚ)) :
    roundNE (n1 * f64Scale) d1 < roundNE (n2 * f64Scale) d2 := by
  have hS : (0 : ℚ) < (f64Scale : ℚ) := by exact_mod_cast f64Scale_pos
  have hSge : (2 : ℚ) ^ 100 ≤ (f64Scale : ℚ) := by exact_mod_cast f64Scale_ge
  have hd1q : (0 : ℚ) < (d1 : ℚ) := by exact_mod_cast h1
  have hd2q : (0 : ℚ) < (d2 : ℚ) := by exact_mod_cast h2
  have hcross : n1 * d2 < n2 * d1 := by
    rw [div_lt_div_iff₀ hd1q hd2q] at hlt
    exact_mod_cast hlt
  have hcrossq : (n1 : ℚ) * d2 + 1 ≤ (n2 : ℚ) * d1 := by exact_mod_cast hcross
  have hprod : (d1 : ℚ) * d2 ≤ 2 ^ 50 := by
    have e1 : (d1 : ℚ) ≤ 2 ^ 25 := by exact_mod_cast hd1.le
    have e2 : (d2 : ℚ) ≤ 2 ^ 25 := by exact_mod_cast hd2.le
    calc (d1 : ℚ) * d2 ≤ 2 ^ 25 * 2 ^ 25 := mul_le_mul e1 e2 hd2q.le (by positivity)
      _ = 2 ^ 50 := by norm_num
  have hgap : 1 / 2 ^ 50 ≤ (n2 : ℚ) / d2 - (n1 : ℚ) / d1 := by
    have e : (n2 : ℚ) / d2 - (n1 : ℚ) / d1 = ((n2 : ℚ) * d1 - n1 * d2) / (d1 * d2) := by
      field_simp
      ring
    rw [e]
    calc (1 : ℚ) / 2 ^ 50 ≤ 1 / (d1 * d2) :=
          div_le_div_of_nonneg_left (by norm_num) (by positivity) hprod
      _ ≤ ((n2 : ℚ) * d1 - n1 * d2) / (d1 * d2) :=
          div_le_div_of_nonneg_right (by linarith) (by positivity)
  have hx1 : (n1 : ℚ) / d1 ≤ 1 := (div_le_one hd1q).mpr (by exact_mod_cast hn1)
  have hx2 : (n2 : ℚ) / d2 ≤ 1 := (div_le_one hd2q).mpr (by exact_mod_cast hn2)
  have hx1n : (0 : ℚ) ≤ (n1 : ℚ) / d1 := by positivity
  have hx2n : (0 : ℚ) ≤ (n2 : ℚ) / d2 := by positivity
  have e1 := roundNE_err (n1 * f64Scale) d1 h1
  have e2 := roundNE_err (n2 * f64Scale) d2 h2
  push_cast at e1 e2
  have r1 : (n1 : ℚ) * f64Scale / d1 = (n1 : ℚ) / d1 * f64Scale := by ring
  have r2 : (n2 : ℚ) * f64Scale / d2 = (n2 : ℚ) / d2 * f64Scale := by ring
  rw [r1] at e1
  rw [r2] at e2
  rw [abs_le] at e1 e2
  generalize (n1 : ℚ) / d1 = x at *
  generalize (n2 : ℚ) / d2 = y at *
  have hxS : x * f64Scale ≤ f64Scale := by nlinarith
  have hyS : y * f64Scale ≤ f64Scale := by nlinarith
  have hgapS : (f64Scale : ℚ) / 2 ^ 50 ≤ y * f64Scale - x * f64Scale := by
    have : (1 / 2 ^ 50) * (f64Scale : ℚ) ≤ (y - x) * f64Scale :=
      mul_le_mul_of_nonneg_right hgap hS.le
    linarith
  have hfin : (roundNE (n1 * f64Scale) d1 : ℚ) < (roundNE (n2 * f64Scale) d2 : ℚ) := by
    norm_num at e1 e2 hgapS
    linarith [e1.2, e2.1]
  exact_mod_cast hfin

/-- Equal exact quotients round to the same `float64`. -/
theorem roundNE_eq_of_ratio_eq (n1 d1 n2 d2 : Nat) (h1 : 0 < d1) (h2 : 0 < d2)
    (heq : n1 * d2 = n2 * d1) :
    roundNE (n1 * f64Scale) d1 = roundNE (n2 * f64Scale) d2 := by
  have a1 : roundNE (n1 * f64Scale) d1 = roundNE (n1 * f64Scale * d2) (d1 * d2) :=
    (roundNE_mul_right _ _ _ h2).symm
  have a2 : roundNE (n2 * f64Scale) d2 = roundNE (n2 * f64Scale * d1) (d2 * d1) :=
    (roundNE_mul_right _ _ _ h1).symm
  have e1 : n1 * f64Scale * d2 = n2 * f64Scale * d1 := by
    calc n1 * f64Scale * d2 = n1 * d2 * f64Scale := by ring
      _ = n2 * d1 * f64Scale := by rw [heq]
      _ = n2 * f64Scale * d1 := by ring
  rw [a1, a2, e1, Nat.mul_comm d1 d2]

/-- A report function with small counts: its `float64` coverage is the rounded
quotient of two numbers whose exact quotient is its exact ratio. -/
theorem small_repr (a : reportFunction) (r : Nat) (hr : a.statementsReached = (r : Int))
    (hrt : r ≤ a.total) (ht : a.total < 2 ^ 25) :
    ∃ n d : Nat, 0 < d ∧ d < 2 ^ 25 ∧ n ≤ d ∧
      covKey a = ((roundNE (n * f64Scale) d : Nat) : Int) ∧
      exactRatio a = (n : ℚ) / (d : ℚ) := by
  by_cases hpos : 0 < a.total
  · refine ⟨r, a.total, hpos, ht, hrt, ?_, ?_⟩
    · have h53 : a.total < 2 ^ 53 := lt_trans ht (by norm_num)
      exact covKey_small a r hr (lt_of_le_of_lt hrt h53) hpos h53
    · unfold exactRatio
      rw [if_pos hpos, hr, Int.cast_natCast]
  · refine ⟨0, 1, Nat.one_pos, by norm_num, Nat.zero_le 1, ?_, ?_⟩
    · have hc : coverage a = F64.fin 0 := by
        unfold coverage
        rw [if_neg hpos]; rfl
      have := coverage_eq_fin a
      rw [hc] at this
      injection this with h
      rw [Nat.zero_mul, roundNE_zero 1 Nat.one_pos]
      exact h.symm
    · unfold exactRatio
      rw [if_neg hpos]
      simp

/-- For report functions with fewer than `2^25` statements, of which between 0
and all are reached, the `float64` coverage that `Less` compares orders and
identifies them exactly as the exact ratio does. -/
theorem coverage_exact (a b : reportFunction) (ra rb : Nat)
    (hra : a.statementsReached = (ra : Int)) (hrb : b.statementsReached = (rb : Int))
    (hat : ra ≤ a.total) (hbt : rb ≤ b.total)
    (ha : a.total < 2 ^ 25) (hb : b.total < 2 ^ 25) :
    (exactRatio a < exactRatio b → F64.lt (coverage a) (coverage b) = true) ∧
    (exactRatio a = exactRatio b → F64.eq (coverage a) (coverage b) = true) := by
  obtain ⟨n1, d1, h1, hd1, hn1, hk1, he1⟩ := small_repr a ra hra hat ha
  obtain ⟨n2, d2, h2, hd2, hn2, hk2, he2⟩ := small_repr b rb hrb hbt hb
  simp only [coverage_eq_fin, F64.lt, F64.eq, decide_eq_true_eq, hk1, hk2, he1, he2]
  constructor
  · intro hlt
    exact_mod_cast roundNE_lt_of_ratio_lt n1 d1 n2 d2 h1 h2 hd1 hd2 hn1 hn2 hlt
  · intro heq
    have hd1q : (d1 : ℚ) ≠ 0 := by exact_mod_cast h1.ne'
    have hd2q : (d2 : ℚ) ≠ 0 := by exact_mod_cast h2.ne'
    rw [div_eq_div_iff hd1q hd2q] at heq
    have hnat : n1 * d2 = n2 * d1 := by exact_mod_cast heq
    exact_mod_cast roundNE_eq_of_ratio_eq n1 d1 n2 d2 h1 h2 hnat

/-! ### The rows written -/

theorem foldl_append_singleton {α β : Type} (f : α → β) (l : List α) (w : List β) :
    l.foldl (fun w x => w ++ [f x]) w = w ++ l.map f := by
  induction l generalizing w with
  | nil => simp
  | cons a l ih => simp [ih]

/-- `printPackage` appends one row per ranked function, in the ranked order. -/
theorem printPackage_eq (srt : Sorter) (w : Writer) (pkg : Package) :
    printPackage srt w pkg = w ++ (rankedFunctions srt pkg).map (formatRow pkg.Name) := by
  unfold printPackage
  exact foldl_append_singleton _ _ _

/-- The loop of `PrintReport` appends, package after package, the rows of the
package and a blank row. -/
theorem printPackages_eq (srt : Sorter) (packages : List Package) (w : Writer) :
    printPackages srt w packages =
      w ++ (packages.map (fun pkg => printPackage srt [] pkg ++ ["\n"])).flatten := by
  unfold printPackages
  induction packages generalizing w with
  | nil => simp
  | cons p ps ih =>
    rw [List.foldl_cons, ih]
    simp [printPackage_eq, List.append_assoc]

theorem rankedFunctions_perm (srt : Sorter) (hs : SortContract srt) (pkg : Package) :
    (rankedFunctions srt pkg).Perm (reportFunctions pkg) :=
  (hs reverseLessFn (reportFunctions pkg) reverseLessFn_strictWeak).1

theorem rankedFunctions_pairwise (srt : Sorter) (hs : SortContract srt) (pkg : Package) :
    (rankedFunctions srt pkg).Pairwise (fun a b => lessFn a b = false) :=
  (hs reverseLessFn (reportFunctions pkg) reverseLessFn_strictWeak).2

/-! ### The ranking of `printPackage` -/

theorem mem_reportFunctions (pkg : Package) (rf : reportFunction)
    (h : rf ∈ reportFunctions pkg) :
    rf.toFunction ∈ pkg.Functions ∧ rf = reportFunctionOf rf.toFunction := by
  unfold reportFunctions at h
  obtain ⟨fn, hfn, rfl⟩ := List.mem_map.mp h
  exact ⟨hfn, rfl⟩

/-- The order of the ranked functions, in the `float64` coverage of `Less`. -/
theorem ranked_order (srt : Sorter) (hs : SortContract srt) (pkg : Package)
    (i j : Nat) (hi : i < (rankedFunctions srt pkg).length)
    (hj : j < (rankedFunctions srt pkg).length) :
    (F64.lt (coverage (rankedFunctions srt pkg)[j])
        (coverage (rankedFunctions srt pkg)[i]) = true → i < j) ∧
    (F64.eq (coverage (rankedFunctions srt pkg)[i])
        (coverage (rankedFunctions srt pkg)[j]) = true ∧
      (rankedFunctions srt pkg)[j].total < (rankedFunctions srt pkg)[i].total → i < j) := by
  have hp := rankedFunctions_pairwise srt hs pkg
  rw [List.pairwise_iff_getElem] at hp
  constructor
  · intro hlt
    by_contra hc
    have hji : j ≤ i := Nat.le_of_not_lt hc
    simp only [coverage_eq_fin, F64.lt, decide_eq_true_eq] at hlt
    rcases Nat.lt_or_eq_of_le hji with h | h
    · have := hp j i hj hi h
      rw [lessFn_eq_false_iff] at this
      omega
    · subst h; omega
  · rintro ⟨heq, htot⟩
    by_contra hc
    have hji : j ≤ i := Nat.le_of_not_lt hc
    simp only [coverage_eq_fin, F64.eq, decide_eq_true_eq] at heq
    rcases Nat.lt_or_eq_of_le hji with h | h
    · have := hp j i hj hi h
      rw [lessFn_eq_false_iff] at this
      omega
    · subst h; omega

/-- C4: for every package, the rows `printPackage` writes are the rows of a
rearrangement `out` of the package's functions in which, for any two positions
`i` and `j`: if the coverage ratio at `i` (reached / total as `Less` computes
it in `float64`, 0 when the total is 0) is greater than the ratio at `j`, then
`i` comes before `j`; and if the two ratios are equal and the function at `i`
has more statements, then `i` comes before `j`. When every function of the
package has fewer than `2^25` statements, the same holds with the ratios
taken in exact arithmetic. The sort is any procedure meeting the contract of
`sort.Sort`. -/
theorem C4_printPackage_ranks (srt : Sorter) (hs : SortContract srt) (w : Writer)
    (pkg : Package) :
    ∃ out : List reportFunction,
      printPackage srt w pkg = w ++ out.map (formatRow pkg.Name) ∧
      out.Perm (reportFunctions pkg) ∧
      (∀ (i j : Nat) (hi : i < out.length) (hj : j < out.length),
        (F64.lt (coverage out[j]) (coverage out[i]) = true → i < j) ∧
        (F64.eq (coverage out[i]) (coverage out[j]) = true ∧ out[j].total < out[i].total →
          i < j)) ∧
      ((∀ fn ∈ pkg.Functions, fn.Statements.length < 2 ^ 25) →
        ∀ (i j : Nat) (hi : i < out.length) (hj : j < out.length),
          (exactRatio out[j] < exactRatio out[i] → i < j) ∧
          (exactRatio out[i] = exactRatio out[j] ∧ out[j].total < out[i].total → i < j)) := by
  refine ⟨rankedFunctions srt pkg, printPackage_eq srt w pkg, rankedFunctions_perm srt hs pkg,
    fun i j hi hj => ranked_order srt hs pkg i j hi hj, ?_⟩
  intro hsmall i j hi hj
  have hfacts : ∀ (k : Nat) (hk : k < (rankedFunctions srt pkg).length),
      ∃ r : Nat, (rankedFunctions srt pkg)[k].statementsReached = (r : Int) ∧
        r ≤ (rankedFunctions srt pkg)[k].total ∧
        (rankedFunctions srt pkg)[k].total < 2 ^ 25 := by
    intro k hk
    have hmem := (rankedFunctions_perm srt hs pkg).subset (List.getElem_mem hk)
    obtain ⟨hfn, hrf⟩ := mem_reportFunctions pkg _ hmem
    generalize (rankedFunctions srt pkg)[k] = rf at hfn hrf
    refine ⟨rf.toFunction.Statements.countP (fun st => decide (st.Reached > 0)), ?_,
      List.countP_le_length _, hsmall _ hfn⟩
    rw [hrf]
    exact countReached_eq rf.toFunction
  obtain ⟨ri, hri, hrti, hti⟩ := hfacts i hi
  obtain ⟨rj, hrj, hrtj, htj⟩ := hfacts j hj
  have hord := ranked_order srt hs pkg i j hi hj
  constructor
  · intro hlt
    exact hord.1 ((coverage_exact _ _ rj ri hrj hri hrtj hrti htj hti).1 hlt)
  · rintro ⟨heq, htot⟩
    exact hord.2 ⟨(coverage_exact _ _ ri rj hri hrj hrti hrtj hti htj).2 heq, htot⟩

/-- C4 at the insertion sort and the package with two functions at 50% and 2
and 10 statements: the function with 10 statements is written first. -/
theorem C4_printPackage_ranks_witness :
    SortContract insertionSorter ∧
    (∃ out : List reportFunction,
      printPackage insertionSorter [] pkgTie = [] ++ out.map (formatRow pkgTie.Name) ∧
      out.Perm (reportFunctions pkgTie) ∧
      (∀ (i j : Nat) (hi : i < out.length) (hj : j < out.length),
        (F64.lt (coverage out[j]) (coverage out[i]) = true → i < j) ∧
        (F64.eq (coverage out[i]) (coverage out[j]) = true ∧ out[j].total < out[i].total →
          i < j)) ∧
      ((∀ fn ∈ pkgTie.Functions, fn.Statements.length < 2 ^ 25) →
        ∀ (i j : Nat) (hi : i < out.length) (hj : j < out.length),
          (exactRatio out[j] < exactRatio out[i] → i < j) ∧
          (exactRatio out[i] = exactRatio out[j] ∧ out[j].total < out[i].total → i < j))) ∧
    (∀ fn ∈ pkgTie.Functions, fn.Statements.length < 2 ^ 25) ∧
    printPackage insertionSorter [] pkgTie =
      ["pkg/a.go:9\t big\t 50.00% (5/10)\n", "pkg/a.go:1\t small\t 50.00% (1/2)\n"] :=
  ⟨insertionSorter_contract,
    C4_printPackage_ranks insertionSorter insertionSorter_contract [] pkgTie,
    by decide, by decide!⟩

/-! ### The percentage and the row -/

theorem countReached_le (fn : Function) :
    0 ≤ countReached fn ∧ countReached fn ≤ (fn.Statements.length : Int) := by
  rw [countReached_eq]
  exact ⟨Int.natCast_nonneg _, by exact_mod_cast List.countP_le_length _⟩

theorem fmtFloat2_natCast (e : Nat) :
    fmtFloat2 (F64.fin (e : Int)) =
      toString (roundHalfEven (e * 100) f64Scale / 100) ++ "."
        ++ twoDigits (roundHalfEven (e * 100) f64Scale % 100) := by
  have h : ¬ ((e : Int) < 0) := by omega
  simp only [fmtFloat2, if_neg h, Int.natAbs_ofNat]
  rfl

/-- A two-decimal numeral within `0.005 + 2^-44` of a percentage with a
denominator below `2^32` is within `0.005` of it: the distance is a multiple
of `1 / (100 * t)`. -/
theorem two_decimals_nearest (h r t : Nat) (ht : 0 < t) (ht32 : t < 2 ^ 32)
    (hb : |(h : ℚ) / 100 - 100 * (r : ℚ) / (t : ℚ)| ≤ 1 / 200 + 1 / 2 ^ 44) :
    |(h : ℚ) / 100 - 100 * (r : ℚ) / (t : ℚ)| ≤ 1 / 200 := by
  have htq : (0 : ℚ) < (t : ℚ) := by exact_mod_cast ht
  have ht32q : (t : ℚ) < 2 ^ 32 := by exact_mod_cast ht32
  have hN : (h : ℚ) / 100 - 100 * (r : ℚ) / (t : ℚ)
      = (((h : Int) * t - 10000 * r : Int) : ℚ) / (100 * (t : ℚ)) := by
    push_cast
    field_simp
    ring
  rw [hN] at hb ⊢
  generalize ((h : Int) * t - 10000 * r : Int) = N at *
  have hpos : (0 : ℚ) < 100 * (t : ℚ) := by positivity
  rw [abs_div, abs_of_pos hpos] at hb ⊢
  rw [div_le_iff₀ hpos] at hb ⊢
  by_contra hc
  have hc2 : 1 / 200 * (100 * (t : ℚ)) < |(N : ℚ)| := lt_of_not_le hc
  have hcast : |(N : ℚ)| = ((|N| : Int) : ℚ) := by push_cast; rfl
  rw [hcast] at hc2 hb
  have hint : (t : Int) < 2 * |N| := by
    have : (t : ℚ) < 2 * ((|N| : Int) : ℚ) := by linarith
    exact_mod_cast this
  have hint2 : (t : Int) + 1 ≤ 2 * |N| := by omega
  have hq2 : (t : ℚ) + 1 ≤ 2 * ((|N| : Int) : ℚ) := by exact_mod_cast hint2
  norm_num at hb
  nlinarith

/-- C5: for every function, with `T` its number of statements and `R` the
number of them reached (which `printPackage` counts, so `0 ≤ R ≤ T`): when
`T = 0` the percentage printed is `0.00`; when `T > 0` the `float64` value
formatted is finite (no division by zero has produced a NaN or an infinity),
the text printed is a numeral with exactly two decimal places, the integer
part of `h / 100`, a point and the two digits of `h % 100`, and its value
`h / 100` is `R / T * 100` rounded to two decimals: it differs from the exact
percentage by at most `0.005`, up to the `float64` rounding of the quotient
and the product, which is below `2^-44` and vanishes when the function has
fewer than `2^32` statements. -/
theorem C5_percentage_printed (fn : Function) :
    (fn.Statements.length = 0 → fmtFloat2 (stmtPercent (reportFunctionOf fn)) = "0.00") ∧
    (0 < fn.Statements.length →
      0 ≤ countReached fn ∧ countReached fn ≤ (fn.Statements.length : Int) ∧
      ∃ e h : Nat,
        stmtPercent (reportFunctionOf fn) = F64.fin (e : Int) ∧
        fmtFloat2 (stmtPercent (reportFunctionOf fn))
          = toString (h / 100) ++ "." ++ twoDigits (h % 100) ∧
        (twoDigits (h % 100)).length = 2 ∧
        |(h : ℚ) / 100 - 100 * (countReached fn : ℚ) / (fn.Statements.length : ℚ)|
          ≤ 1 / 200 + 1 / 2 ^ 44 ∧
        (fn.Statements.length < 2 ^ 32 →
          |(h : ℚ) / 100 - 100 * (countReached fn : ℚ) / (fn.Statements.length : ℚ)|
            ≤ 1 / 200)) := by
  constructor
  · intro h0
    have : stmtPercent (reportFunctionOf fn) = F64.zero := by
      simp [stmtPercent, reportFunctionOf, reportFunction.total, h0]
    rw [this]
    decide!
  · intro hpos
    obtain ⟨hc0, hcT⟩ := countReached_le fn
    refine ⟨hc0, hcT, ?_⟩
    have hcr := countReached_eq fn
    generalize hr : fn.Statements.countP (fun st => decide (st.Reached > 0)) = r at hcr
    have hrt : r ≤ fn.Statements.length := by
      rw [← hr]; exact List.countP_le_length _
    have hu := stmtPercent_units (reportFunctionOf fn) r hcr hpos
    simp only [reportFunction.total, reportFunctionOf] at hu
    generalize he : roundNE (roundNE (roundNE (r * f64Scale) 1 * f64Scale)
      (roundNE (fn.Statements.length * f64Scale) 1) * (100 * f64Scale)) f64Scale = e at hu
    have hv := stmtPercent_value r fn.Statements.length hpos hrt
    rw [he] at hv
    have hbound : |(roundHalfEven (e * 100) f64Scale : ℚ) / 100
        - 100 * (r : ℚ) / (fn.Statements.length : ℚ)| ≤ 1 / 200 + 1 / 2 ^ 44 := by
      have hf := fmtFloat2_value e
      have htri := abs_sub_le ((roundHalfEven (e * 100) f64Scale : ℚ) / 100)
        ((e : ℚ) / (f64Scale : ℚ)) (100 * (r : ℚ) / (fn.Statements.length : ℚ))
      linarith
    refine ⟨e, roundHalfEven (e * 100) f64Scale, hu, ?_, ?_, ?_, ?_⟩
    · simp only [reportFunctionOf]
      rw [hu, fmtFloat2_natCast]
    · have hlen : ∀ f, f < 100 → (twoDigits f).length = 2 := by decide
      exact hlen _ (Nat.mod_lt _ (by norm_num))
    · rw [hcr, Int.cast_natCast]
      exact hbound
    · intro h32
      rw [hcr, Int.cast_natCast]
      exact two_decimals_nearest _ r _ hpos h32 hbound

/-- C5 at a function without statements and at a function with 2 of its 4
statements reached, which prints `50.00`. -/
theorem C5_percentage_printed_witness :
    fmtFloat2 (stmtPercent (reportFunctionOf fnNone)) = "0.00" ∧
    (0 ≤ countReached fnHalf ∧ countReached fnHalf ≤ (fnHalf.Statements.length : Int) ∧
      ∃ e h : Nat,
        stmtPercent (reportFunctionOf fnHalf) = F64.fin (e : Int) ∧
        fmtFloat2 (stmtPercent (reportFunctionOf fnHalf))
          = toString (h / 100) ++ "." ++ twoDigits (h % 100) ∧
        (twoDigits (h % 100)).length = 2 ∧
        |(h : ℚ) / 100 - 100 * (countReached fnHalf : ℚ) / (fnHalf.Statements.length : ℚ)|
          ≤ 1 / 200 + 1 / 2 ^ 44 ∧
        (fnHalf.Statements.length < 2 ^ 32 →
          |(h : ℚ) / 100 - 100 * (countReached fnHalf : ℚ) / (fnHalf.Statements.length : ℚ)|
            ≤ 1 / 200)) ∧
    fmtFloat2 (stmtPercent (reportFunctionOf fnHalf)) = "50.00" :=
  ⟨(C5_percentage_printed fnNone).1 (by decide),
    (C5_percentage_printed fnHalf).2 (by decide),
    by decide!⟩

theorem reportFunctions_toFunction (pkg : Package) :
    (reportFunctions pkg).map (fun rf => rf.toFunction) = pkg.Functions := by
  unfold reportFunctions
  rw [List.map_map]
  exact List.map_id _

/-- The rows of `printPackage` through the functions themselves: a
rearrangement of the package's functions, each with its row. -/
theorem printPackage_rows (srt : Sorter) (hs : SortContract srt) (w : Writer)
    (pkg : Package) :
    ∃ out : List Function, out.Perm pkg.Functions ∧
      printPackage srt w pkg
        = w ++ out.map (fun fn => formatRow pkg.Name (reportFunctionOf fn)) := by
  refine ⟨(rankedFunctions srt pkg).map (fun rf => rf.toFunction), ?_, ?_⟩
  · have hp := (rankedFunctions_perm srt hs pkg).map (fun rf => rf.toFunction)
    rwa [reportFunctions_toFunction] at hp
  · rw [printPackage_eq, List.map_map]
    congr 1
    apply List.map_congr_left
    intro rf hrf
    have hmem := (rankedFunctions_perm srt hs pkg).subset hrf
    simp only [Function.comp]
    rw [← (mem_reportFunctions pkg rf hmem).2]

/-- C7 as stated fails: for `f2` (file `b.go`, line 5, 3 of 3 statements
reached) of the package `pkg`, `printPackage` writes the row
`"pkg/b.go:5\t f2\t 100.00% (3/3)\n"`, with a space after each tab, and
not the row the specification words, `"pkg/b.go:5\tf2\t100.00% (3/3)\n"`;
the cells are `"pkg/b.go:5"`, `" f2"` and `" 100.00% (3/3)"`. -/
theorem C7_row_counterexample :
    printPackage insertionSorter [] pkgScenario
      = ["pkg/b.go:5\t f2\t 100.00% (3/3)\n", "pkg/a.go:3\t f1\t 50.00% (2/4)\n"] ∧
    claimedRow "pkg" (reportFunctionOf (mkFunction "f2" "b.go" 5 [1, 2, 3]))
      = "pkg/b.go:5\tf2\t100.00% (3/3)\n" ∧
    claimedRow "pkg" (reportFunctionOf (mkFunction "f2" "b.go" 5 [1, 2, 3]))
      ∉ printPackage insertionSorter [] pkgScenario := by
  decide!

/-- C7, amended: for every package and every function `fn` of it, the row
`printPackage` writes for `fn` is exactly the package name, `/`, the base
filename `filepath.Base(fn.File)`, `:`, the line, a tab and a space, the
function name, a tab and a space, the two-decimal percentage, `% (`, the
reached count, `/`, the statement count, `)` and a newline. The rows written
are those of a rearrangement of the package's functions, one row each. -/
theorem C7_row_format (srt : Sorter) (hs : SortContract srt) (w : Writer) (pkg : Package) :
    ∃ out : List Function, out.Perm pkg.Functions ∧
      printPackage srt w pkg = w ++ out.map (fun fn =>
        pkg.Name ++ "/" ++ filepathBase fn.File ++ ":" ++ toString fn.Line
          ++ "\t " ++ fn.Name ++ "\t " ++ fmtFloat2 (stmtPercent (reportFunctionOf fn))
          ++ "% (" ++ toString (countReached fn) ++ "/" ++ toString fn.Statements.length
          ++ ")\n") :=
  printPackage_rows srt hs w pkg

/-- C7, amended, at the insertion sort and the package of the scenario: the
cells of `f2` are `"pkg/b.go:5"`, `" f2"` and `" 100.00% (3/3)"`. -/
theorem C7_row_format_witness :
    SortContract insertionSorter ∧
    (∃ out : List Function, out.Perm pkgScenario.Functions ∧
      printPackage insertionSorter [] pkgScenario = [] ++ out.map (fun fn =>
        pkgScenario.Name ++ "/" ++ filepathBase fn.File ++ ":" ++ toString fn.Line
          ++ "\t " ++ fn.Name ++ "\t " ++ fmtFloat2 (stmtPercent (reportFunctionOf fn))
          ++ "% (" ++ toString (countReached fn) ++ "/" ++ toString fn.Statements.length
          ++ ")\n")) ∧
    formatRow "pkg" (reportFunctionOf (mkFunction "f2" "b.go" 5 [1, 2, 3]))
      = "pkg/b.go:5" ++ "\t" ++ " f2" ++ "\t" ++ " 100.00% (3/3)" ++ "\n" :=
  ⟨insertionSorter_contract,
    C7_row_format insertionSorter insertionSorter_contract [] pkgScenario, by decide!⟩


/-! ### The report as a whole -/

/-- C8: rendering the same report twice, with nothing done to it in between,
delivers the same text both times: the first `PrintReport` leaves the report
as it was, and what the writer receives does not depend on what it had
received before. The sort may be any procedure. -/
theorem C8_PrintReport_twice (srt : Sorter) (w1 w2 : List Char) (r : Report) :
    ∃ out : List Char,
      (PrintReport srt w1 r).1 = w1 ++ out ∧
      (PrintReport srt w2 (PrintReport srt w1 r).2).1 = w2 ++ out :=
  ⟨((reportRows srt r).foldl TabWriter.write TabWriter.new).output, rfl, rfl⟩

/-- C9, on the code. The specification asks that a report built by successful
`AddPackage` calls is printed in ascending order of package name. The calls
`"a"`, `"b"` on a new report succeed and leave `["b", "a"]`, and
`PrintReport` writes the block of `b` before the block of `a`. -/
theorem C9_PrintReport_blocks_not_ascending :
    ∃ r, addPackages NewReport [pkgA, pkgB] = Except.ok r ∧
      r.names = ["b", "a"] ∧
      reportRows insertionSorter r
        = ["b/y.go:2\t g\t 100.00% (1/1)\n", "\n", "a/x.go:1\t f\t 0.00% (0/1)\n", "\n"] := by
  refine ⟨_, rfl, ?_, ?_⟩ <;> decide!

theorem printPackage_length (srt : Sorter) (hs : SortContract srt) (pkg : Package) :
    (printPackage srt [] pkg).length = pkg.Functions.length := by
  rw [printPackage_eq, List.nil_append, List.length_map,
    (rankedFunctions_perm srt hs pkg).length_eq]
  simp [reportFunctions]

/-- C10: for every report, the rows `PrintReport` writes are, package after
package in the order the report holds them, the function rows of the package
followed by one blank row; a package contributes as many function rows as it
has functions, so the number of rows is the number of functions plus the
number of packages; the last row is blank when the report holds a package,
and nothing is written when it holds none. -/
theorem C10_PrintReport_rows (srt : Sorter) (hs : SortContract srt) (r : Report) :
    reportRows srt r
      = (r.packages.map (fun pkg => printPackage srt [] pkg ++ ["\n"])).flatten ∧
    (∀ pkg ∈ r.packages, (printPackage srt [] pkg).length = pkg.Functions.length) ∧
    (reportRows srt r).length
      = (r.packages.map (fun pkg => pkg.Functions.length)).sum + r.packages.length ∧
    (r.packages ≠ [] → (reportRows srt r).getLast? = some "\n") ∧
    (r.packages = [] → reportRows srt r = []) := by
  have heq : reportRows srt r
      = (r.packages.map (fun pkg => printPackage srt [] pkg ++ ["\n"])).flatten := by
    unfold reportRows
    rw [printPackages_eq, List.nil_append]
  refine ⟨heq, fun pkg _ => printPackage_length srt hs pkg, ?_, ?_, ?_⟩
  · rw [heq]
    generalize r.packages = l
    induction l with
    | nil => simp
    | cons p ps ih =>
      simp only [List.map_cons, List.flatten_cons, List.length_append, ih, List.sum_cons,
        List.length_cons, List.length_nil, printPackage_length srt hs p]
      omega
  · intro hne
    rw [heq]
    obtain ⟨ps, p, hp⟩ : ∃ ps p, r.packages = ps ++ [p] :=
      ⟨r.packages.dropLast, r.packages.getLast hne, (List.dropLast_append_getLast hne).symm⟩
    rw [hp]
    simp [List.getLast?_append]
  · intro hnil
    rw [heq, hnil]
    rfl

/-- C10 at the insertion sort and the report holding the package of the
scenario: two function rows and a blank row. -/
theorem C10_PrintReport_rows_witness :
    SortContract insertionSorter ∧
    (reportRows insertionSorter { packages := [pkgScenario] }
      = (([pkgScenario] : List Package).map
          (fun pkg => printPackage insertionSorter [] pkg ++ ["\n"])).flatten ∧
    (∀ pkg ∈ ([pkgScenario] : List Package),
      (printPackage insertionSorter [] pkg).length = pkg.Functions.length) ∧
    (reportRows insertionSorter { packages := [pkgScenario] }).length
      = (([pkgScenario] : List Package).map (fun pkg => pkg.Functions.length)).sum
        + ([pkgScenario] : List Package).length ∧
    (([pkgScenario] : List Package) ≠ [] →
      (reportRows insertionSorter { packages := [pkgScenario] }).getLast? = some "\n") ∧
    (([pkgScenario] : List Package) = [] →
      reportRows insertionSorter { packages := [pkgScenario] } = [])) ∧
    reportRows insertionSorter { packages := [pkgScenario] }
      = ["pkg/b.go:5\t f2\t 100.00% (3/3)\n", "pkg/a.go:3\t f1\t 50.00% (2/4)\n", "\n"] :=
  ⟨insertionSorter_contract,
    C10_PrintReport_rows insertionSorter insertionSorter_contract { packages := [pkgScenario] },
    by decide!⟩

/-! ### `AddPackage`, call by call -/

/-- C13: for every report and packages `p` and `q` of the same name, when
`AddPackage(p)` succeeds, `AddPackage(q)` called next panics with the
duplicate-package message and leaves the collection as it was after adding
`p`. Adding `"a"` twice to a new report panics on the second call, and the
collection then holds one package, named `"a"`. -/
theorem C13_AddPackage_same_name_twice (r r2 : Report) (p q : Package)
    (hname : p.Name = q.Name) (hadd : r.AddPackage p = Except.ok r2) :
    r2.AddPackage q
      = Except.error "package already exists: result merging not implemented yet" ∧
    r2.afterAddPackage q
      = (r2, some "package already exists: result merging not implemented yet") ∧
    (r2.afterAddPackage q).1.packages = r2.packages := by
  rw [AddPackage_eq] at hadd
  split_ifs at hadd with h
  injection hadd with hr2
  have hq : r2.AddPackage q
      = Except.error "package already exists: result merging not implemented yet" := by
    rw [AddPackage_eq, ← hr2]
    simp [hname]
  refine ⟨hq, ?_, ?_⟩ <;> simp [Report.afterAddPackage, hq]

/-- C13 at a new report and the name `"a"`: the second call panics and the
collection holds exactly one package named `"a"`. -/
theorem C13_AddPackage_same_name_twice_witness :
    NewReport.AddPackage (pkgNamed "a") = Except.ok { packages := [pkgNamed "a"] } ∧
    (Report.AddPackage { packages := [pkgNamed "a"] } (pkgNamed "a")
      = Except.error "package already exists: result merging not implemented yet" ∧
    Report.afterAddPackage { packages := [pkgNamed "a"] } (pkgNamed "a")
      = ({ packages := [pkgNamed "a"] },
          some "package already exists: result merging not implemented yet") ∧
    (Report.afterAddPackage { packages := [pkgNamed "a"] } (pkgNamed "a")).1.packages
      = [pkgNamed "a"]) ∧
    Report.names (Report.afterAddPackage { packages := [pkgNamed "a"] } (pkgNamed "a")).1
      = ["a"] :=
  ⟨rfl, C13_AddPackage_same_name_twice NewReport { packages := [pkgNamed "a"] }
    (pkgNamed "a") (pkgNamed "a") rfl rfl, by decide⟩

/-- C17: for every report and package `p`, `AddPackage(p)` panics exactly when
the collection is not empty and the name of its package at index 0 is the
name of `p`, and it succeeds exactly in the other case. -/
theorem C17_AddPackage_aborts_iff (r : Report) (p : Package) :
    ((∃ e, r.AddPackage p = Except.error e) ↔
      (0 < r.packages.length ∧ r.packages[0]?.map (fun q => q.Name) = some p.Name)) ∧
    ((∃ r2, r.AddPackage p = Except.ok r2) ↔
      ¬ (0 < r.packages.length ∧ r.packages[0]?.map (fun q => q.Name) = some p.Name)) := by
  rw [AddPackage_eq]
  cases hl : r.packages with
  | nil => simp
  | cons q qs =>
    by_cases h : q.Name = p.Name
    · simp [h]
    · simp [h]

/-- C18: for every report and package `p`, when `AddPackage(p)` succeeds the
collection is one longer, `p` is in it, and the packages held before are all
still there in the same relative order: the new collection is `p` followed by
the old one. -/
theorem C18_AddPackage_frame (r r2 : Report) (p : Package)
    (hadd : r.AddPackage p = Except.ok r2) :
    r2.packages.length = r.packages.length + 1 ∧
    p ∈ r2.packages ∧
    r.packages.Sublist r2.packages ∧
    r2.packages = p :: r.packages := by
  rw [AddPackage_eq] at hadd
  split_ifs at hadd with h
  injection hadd with hr2
  subst hr2
  exact ⟨rfl, List.mem_cons_self _ _, List.sublist_cons_self _ _, rfl⟩

/-- C18 at the report holding `["a"]` and the package `"b"`. -/
theorem C18_AddPackage_frame_witness :
    Report.AddPackage { packages := [pkgNamed "a"] } (pkgNamed "b")
      = Except.ok { packages := [pkgNamed "b", pkgNamed "a"] } ∧
    (([pkgNamed "b", pkgNamed "a"] : List Package).length
        = ([pkgNamed "a"] : List Package).length + 1 ∧
      pkgNamed "b" ∈ ([pkgNamed "b", pkgNamed "a"] : List Package) ∧
      ([pkgNamed "a"] : List Package).Sublist [pkgNamed "b", pkgNamed "a"] ∧
      ([pkgNamed "b", pkgNamed "a"] : List Package) = pkgNamed "b" :: [pkgNamed "a"]) :=
  ⟨rfl, C18_AddPackage_frame { packages := [pkgNamed "a"] }
    { packages := [pkgNamed "b", pkgNamed "a"] } (pkgNamed "b") rfl⟩

/-! ### The functions of a package and their rows -/

/-- C12: for every function, the `statementsReached` that `printPackage` stores
for it is the number of its statements whose `Reached` count is greater than
0, and it lies between 0 and the number of statements of the function; the
list `functions` holds these counts in the order of the package's functions. -/
theorem C12_statementsReached_count (pkg : Package) (fn : Function) :
    (reportFunctionOf fn).statementsReached
      = ((fn.Statements.countP (fun st => decide (st.Reached > 0)) : Nat) : Int) ∧
    0 ≤ (reportFunctionOf fn).statementsReached ∧
    (reportFunctionOf fn).statementsReached ≤ (fn.Statements.length : Int) ∧
    (reportFunctions pkg).map (fun rf => rf.statementsReached)
      = pkg.Functions.map (fun f =>
          ((f.Statements.countP (fun st => decide (st.Reached > 0)) : Nat) : Int)) := by
  refine ⟨countReached_eq fn, (countReached_le fn).1, (countReached_le fn).2, ?_⟩
  unfold reportFunctions
  rw [List.map_map]
  apply List.map_congr_left
  intro f _
  exact countReached_eq f

/-- C15: for every package, the rows `printPackage` writes are the rows of a
rearrangement of the package's function list, one row for each function and
no other row: a package with `n` functions gets exactly `n` rows. The sort is
any procedure meeting the contract of `sort.Sort`. -/
theorem C15_rows_permutation (srt : Sorter) (hs : SortContract srt) (w : Writer)
    (pkg : Package) :
    ∃ out : List Function,
      out.Perm pkg.Functions ∧
      printPackage srt w pkg = w ++ out.map (fun fn => formatRow pkg.Name (reportFunctionOf fn)) ∧
      (printPackage srt w pkg).length = w.length + pkg.Functions.length := by
  obtain ⟨out, hperm, hrows⟩ := printPackage_rows srt hs w pkg
  refine ⟨out, hperm, hrows, ?_⟩
  rw [hrows, List.length_append, List.length_map, hperm.length_eq]

/-- C15 at the insertion sort and the package of the scenario: two functions,
two rows. -/
theorem C15_rows_permutation_witness :
    SortContract insertionSorter ∧
    (∃ out : List Function,
      out.Perm pkgScenario.Functions ∧
      printPackage insertionSorter [] pkgScenario
        = [] ++ out.map (fun fn => formatRow pkgScenario.Name (reportFunctionOf fn)) ∧
      (printPackage insertionSorter [] pkgScenario).length
        = ([] : Writer).length + pkgScenario.Functions.length) ∧
    (printPackage insertionSorter [] pkgScenario).length = 2 :=
  ⟨insertionSorter_contract,
    C15_rows_permutation insertionSorter insertionSorter_contract [] pkgScenario, by decide!⟩

/-- The coverage of a function whose reached count is not negative is not
negative. -/
theorem covKey_nonneg (a : reportFunction) (h : 0 ≤ a.statementsReached) : 0 ≤ covKey a := by
  have hc := coverage_eq_fin a
  unfold coverage at hc
  by_cases ht : a.total > 0
  · obtain ⟨b, hb, hbe⟩ := ofInt_total_fin a.total ht
    rw [if_pos ht, hbe] at hc
    simp only [F64.ofInt, F64.div, if_neg hb] at hc
    injection hc with hk
    rw [← hk]
    have hb0 : 0 ≤ b := by
      have := hbe
      simp only [F64.ofInt] at this
      injection this with hb2
      rw [← hb2]
      exact mul_nonneg (Int.sign_nonneg.mpr (Int.natCast_nonneg _)) (Int.natCast_nonneg _)
    have hs1 : 0 ≤ (a.statementsReached.sign *
        ((roundNE (a.statementsReached.natAbs * f64Scale) 1 : Nat) : Int)).sign :=
      Int.sign_nonneg.mpr
        (mul_nonneg (Int.sign_nonneg.mpr h) (Int.natCast_nonneg _))
    exact mul_nonneg (mul_nonneg hs1 (Int.sign_nonneg.mpr hb0)) (Int.natCast_nonneg _)
  · rw [if_neg ht] at hc
    simp only [F64.zero] at hc
    injection hc with hk
    omega

/-- A function without statements has coverage zero. -/
theorem covKey_of_total_zero (a : reportFunction) (h : a.total = 0) : covKey a = 0 := by
  have hc := coverage_eq_fin a
  unfold coverage at hc
  rw [if_neg (by omega)] at hc
  simp only [F64.zero] at hc
  injection hc with hk
  omega

/-- C19: for every package, in the order `printPackage` writes the rows no
function without statements comes before a function with at least one
statement: whenever the function at position `i` has no statement and the
function at position `j` has one or more, `j` comes before `i`, whatever the
coverage at `j`. The sort is any procedure meeting the contract of
`sort.Sort`. -/
theorem C19_empty_functions_last (srt : Sorter) (hs : SortContract srt) (w : Writer)
    (pkg : Package) :
    ∃ out : List reportFunction,
      printPackage srt w pkg = w ++ out.map (formatRow pkg.Name) ∧
      out.Perm (reportFunctions pkg) ∧
      ∀ (i j : Nat) (hi : i < out.length) (hj : j < out.length),
        out[i].total = 0 → 0 < out[j].total → j < i := by
  refine ⟨rankedFunctions srt pkg, printPackage_eq srt w pkg, rankedFunctions_perm srt hs pkg, ?_⟩
  intro i j hi hj hzero hpos
  have hp := rankedFunctions_pairwise srt hs pkg
  rw [List.pairwise_iff_getElem] at hp
  have hmem := (rankedFunctions_perm srt hs pkg).subset (List.getElem_mem hj)
  have hnn : 0 ≤ covKey (rankedFunctions srt pkg)[j] := by
    apply covKey_nonneg
    rw [(mem_reportFunctions pkg _ hmem).2]
    exact (countReached_le _).1
  have hz := covKey_of_total_zero _ hzero
  by_contra hc
  rcases Nat.lt_or_eq_of_le (Nat.le_of_not_lt hc) with h | h
  · have := hp i j hi hj h
    rw [lessFn_eq_false_iff] at this
    omega
  · subst h; omega

/-- C19 at the insertion sort and a package whose first function has no
statement and whose second has one statement, not reached: the second is
written first. -/
theorem C19_empty_functions_last_witness :
    SortContract insertionSorter ∧
    (∃ out : List reportFunction,
      printPackage insertionSorter [] pkgZero = [] ++ out.map (formatRow pkgZero.Name) ∧
      out.Perm (reportFunctions pkgZero) ∧
      ∀ (i j : Nat) (hi : i < out.length) (hj : j < out.length),
        out[i].total = 0 → 0 < out[j].total → j < i) ∧
    printPackage insertionSorter [] pkgZero
      = ["pkg/a.go:7\t cold\t 0.00% (0/1)\n", "pkg/a.go:1\t none\t 0.00% (0/0)\n"] :=
  ⟨insertionSorter_contract,
    C19_empty_functions_last insertionSorter insertionSorter_contract [] pkgZero, by decide!⟩

/-! ### `Less` as an ordering -/

theorem Less_eq_some (l : List reportFunction) (i j : Nat) (v : Bool) :
    reportFunctionList.Less l i j = some v ↔
      ∃ a b, l[i]? = some a ∧ l[j]? = some b ∧ lessFn a b = v := by
  unfold reportFunctionList.Less
  cases hi : l[i]? with
  | none => simp
  | some a =>
    cases hj : l[j]? with
    | none => simp
    | some b => simp

/-- Two report functions are incomparable for `Less` exactly when they have the
same coverage and the same statement count. -/
theorem lessFn_incomparable_iff (a b : reportFunction) :
    (lessFn a b = false ∧ lessFn b a = false) ↔ (covKey a = covKey b ∧ a.total = b.total) := by
  rw [lessFn_eq_false_iff, lessFn_eq_false_iff]
  constructor
  · rintro ⟨h1 | ⟨h1, h2⟩, h3 | ⟨h3, h4⟩⟩ <;> omega
  · rintro ⟨h1, h2⟩
    exact ⟨Or.inr ⟨h1, by omega⟩, Or.inr ⟨h1.symm, by omega⟩⟩

/-- In range, `Less` decides the comparison over exact ratios. -/
theorem lessFn_iff_exactLess (a b : reportFunction) (ha : InRange a) (hb : InRange b) :
    lessFn a b = true ↔ exactLess a b := by
  obtain ⟨ha0, hat, ha25⟩ := ha
  obtain ⟨hb0, hbt, hb25⟩ := hb
  obtain ⟨ra, hra⟩ := Int.eq_ofNat_of_zero_le ha0
  obtain ⟨rb, hrb⟩ := Int.eq_ofNat_of_zero_le hb0
  have hat2 : ra ≤ a.total := by rw [hra] at hat; exact_mod_cast hat
  have hbt2 : rb ≤ b.total := by rw [hrb] at hbt; exact_mod_cast hbt
  have hab := coverage_exact a b ra rb hra hrb hat2 hbt2 ha25 hb25
  have hba := coverage_exact b a rb ra hrb hra hbt2 hat2 hb25 ha25
  simp only [coverage_eq_fin, F64.lt, F64.eq, decide_eq_true_eq] at hab hba
  rw [lessFn_iff]
  unfold exactLess
  constructor
  · rintro (h | ⟨h1, h2⟩)
    · rcases lt_trichotomy (exactRatio a) (exactRatio b) with h3 | h3 | h3
      · exact Or.inl h3
      · have := hab.2 h3; omega
      · have := hba.1 h3; omega
    · rcases lt_trichotomy (exactRatio a) (exactRatio b) with h3 | h3 | h3
      · exact Or.inl h3
      · exact Or.inr ⟨h3, h2⟩
      · have := hba.1 h3; omega
  · rintro (h | ⟨h1, h2⟩)
    · exact Or.inl (hab.1 h)
    · exact Or.inr ⟨hab.2 h1, h2⟩

/-- C16: on any list of report functions, with `i`, `j`, `k` indices of it.
The comparison `Less(i, j)` as the code computes it is irreflexive,
asymmetric and transitive, two elements are incomparable exactly when they
have the same coverage and the same statement count, and incomparability is
transitive; `reverse.Less(i, j)` is `Less(j, i)` and has the same four
properties. Read over exact ratios (reached / total, 0 when the total is 0)
the comparison is irreflexive, asymmetric and transitive, with incomparability
the equality of ratio and statement count, which is transitive; and this
reading is what `Less` computes whenever the reached counts are between 0 and
the statement counts and these are below `2^25`. -/
theorem C16_Less_strict_weak_order (l : List reportFunction) :
    (∀ i, i < l.length → reportFunctionList.Less l i i = some false) ∧
    (∀ i j, reportFunctionList.Less l i j = some true →
      reportFunctionList.Less l j i = some false) ∧
    (∀ i j k, reportFunctionList.Less l i j = some true →
      reportFunctionList.Less l j k = some true → reportFunctionList.Less l i k = some true) ∧
    (∀ i j (hi : i < l.length) (hj : j < l.length),
      (reportFunctionList.Less l i j = some false ∧ reportFunctionList.Less l j i = some false)
        ↔ (coverage l[i] = coverage l[j] ∧ l[i].total = l[j].total)) ∧
    (∀ i j k, reportFunctionList.Less l i j = some false →
      reportFunctionList.Less l j i = some false →
      reportFunctionList.Less l j k = some false →
      reportFunctionList.Less l k j = some false →
      reportFunctionList.Less l i k = some false ∧
        reportFunctionList.Less l k i = some false) ∧
    (∀ i j, reverse.Less l i j = reportFunctionList.Less l j i) ∧
    (∀ i, i < l.length → reverse.Less l i i = some false) ∧
    (∀ i j, reverse.Less l i j = some true → reverse.Less l j i = some false) ∧
    (∀ i j k, reverse.Less l i j = some true → reverse.Less l j k = some true →
      reverse.Less l i k = some true) ∧
    (∀ i j k, reverse.Less l i j = some false → reverse.Less l j i = some false →
      reverse.Less l j k = some false → reverse.Less l k j = some false →
      reverse.Less l i k = some false ∧ reverse.Less l k i = some false) ∧
    (∀ a b c : reportFunction,
      ¬ exactLess a a ∧
      (exactLess a b → ¬ exactLess b a) ∧
      (exactLess a b → exactLess b c → exactLess a c) ∧
      ((¬ exactLess a b ∧ ¬ exactLess b a) ↔
        (exactRatio a = exactRatio b ∧ a.total = b.total)) ∧
      (¬ exactLess a b → ¬ exactLess b a → ¬ exactLess b c → ¬ exactLess c b →
        ¬ exactLess a c ∧ ¬ exactLess c a)) ∧
    ((∀ a ∈ l, InRange a) →
      ∀ i j (hi : i < l.length) (hj : j < l.length),
        reportFunctionList.Less l i j = some (decide (exactLess l[i] l[j]))) := by
  obtain ⟨hirr, htr, hneg⟩ := lessFn_strictWeak
  have hasym : ∀ a b, lessFn a b = true → lessFn b a = false := by
    intro a b hab
    by_contra hc
    have := htr a b a hab (by simpa using hc)
    rw [hirr] at this
    exact Bool.false_ne_true this
  have h1 : ∀ i, i < l.length → reportFunctionList.Less l i i = some false := by
    intro i hi
    rw [Less_eq_some]
    exact ⟨l[i], l[i], List.getElem?_eq_getElem hi, List.getElem?_eq_getElem hi, hirr _⟩
  have h2 : ∀ i j, reportFunctionList.Less l i j = some true →
      reportFunctionList.Less l j i = some false := by
    intro i j h
    obtain ⟨a, b, ha, hb, hab⟩ := (Less_eq_some l i j true).mp h
    exact (Less_eq_some l j i false).mpr ⟨b, a, hb, ha, hasym a b hab⟩
  have h3 : ∀ i j k, reportFunctionList.Less l i j = some true →
      reportFunctionList.Less l j k = some true →
      reportFunctionList.Less l i k = some true := by
    intro i j k hij hjk
    obtain ⟨a, b, ha, hb, hab⟩ := (Less_eq_some l i j true).mp hij
    obtain ⟨b2, c, hb2, hc, hbc⟩ := (Less_eq_some l j k true).mp hjk
    rw [hb] at hb2
    injection hb2 with hbb
    subst hbb
    exact (Less_eq_some l i k true).mpr ⟨a, c, ha, hc, htr a b c hab hbc⟩
  have h5 : ∀ i j k, reportFunctionList.Less l i j = some false →
      reportFunctionList.Less l j i = some false →
      reportFunctionList.Less l j k = some false →
      reportFunctionList.Less l k j = some false →
      reportFunctionList.Less l i k = some false ∧
        reportFunctionList.Less l k i = some false := by
    intro i j k hij hji hjk hkj
    obtain ⟨a, b, ha, hb, hab⟩ := (Less_eq_some l i j false).mp hij
    obtain ⟨b2, a2, hb2, ha2, hba⟩ := (Less_eq_some l j i false).mp hji
    obtain ⟨b3, c, hb3, hc, hbc⟩ := (Less_eq_some l j k false).mp hjk
    obtain ⟨c2, b4, hc2, hb4, hcb⟩ := (Less_eq_some l k j false).mp hkj
    rw [hb] at hb2 hb3 hb4
    rw [ha] at ha2
    rw [hc] at hc2
    injection hb2 with e1
    injection hb3 with e2
    injection hb4 with e3
    injection ha2 with e4
    injection hc2 with e5
    subst e1 e2 e3 e4 e5
    exact ⟨(Less_eq_some l i k false).mpr ⟨a, c, ha, hc, hneg a b c hab hbc⟩,
      (Less_eq_some l k i false).mpr ⟨c, a, hc, ha, hneg c b a hcb hba⟩⟩
  refine ⟨h1, h2, h3, ?_, h5, fun _ _ => rfl, h1, fun i j h => h2 j i h,
    fun i j k hij hjk => h3 k j i hjk hij, ?_, ?_, ?_⟩
  · intro i j hi hj
    have e1 : reportFunctionList.Less l i j = some (lessFn l[i] l[j]) := by
      simp [reportFunctionList.Less, List.getElem?_eq_getElem hi, List.getElem?_eq_getElem hj]
    have e2 : reportFunctionList.Less l j i = some (lessFn l[j] l[i]) := by
      simp [reportFunctionList.Less, List.getElem?_eq_getElem hi, List.getElem?_eq_getElem hj]
    rw [e1, e2]
    simp only [Option.some.injEq]
    rw [lessFn_incomparable_iff, coverage_eq_fin, coverage_eq_fin]
    constructor
    · rintro ⟨h, ht⟩; exact ⟨by rw [h], ht⟩
    · rintro ⟨h, ht⟩
      injection h with h
      exact ⟨h, ht⟩
  · intro i j k hij hji hjk hkj
    have := h5 i j k hji hij hkj hjk
    exact ⟨this.2, this.1⟩
  · intro a b c
    unfold exactLess
    refine ⟨?_, ?_, ?_, ?_, ?_⟩
    · rintro (h | ⟨_, h⟩)
      · exact lt_irrefl _ h
      · exact Nat.lt_irrefl _ h
    · rintro (h | ⟨h1, h2⟩) (h3 | ⟨h3, h4⟩)
      · exact lt_asymm h h3
      · rw [h3] at h; exact lt_irrefl _ h
      · rw [h1] at h3; exact lt_irrefl _ h3
      · omega
    · rintro (h | ⟨h1, h2⟩) (h3 | ⟨h3, h4⟩)
      · exact Or.inl (lt_trans h h3)
      · exact Or.inl (h3 ▸ h)
      · exact Or.inl (h1 ▸ h3)
      · exact Or.inr ⟨h1.trans h3, by omega⟩
    · constructor
      · rintro ⟨h1, h2⟩
        push_neg at h1 h2
        have he : exactRatio a = exactRatio b := le_antisymm h2.1 h1.1
        exact ⟨he, le_antisymm (h2.2 he.symm) (h1.2 he)⟩
      · rintro ⟨h1, h2⟩
        constructor
        · rintro (h | ⟨_, h⟩)
          · rw [h1] at h; exact lt_irrefl _ h
          · omega
        · rintro (h | ⟨_, h⟩)
          · rw [h1] at h; exact lt_irrefl _ h
          · omega
    · intro hab hba hbc hcb
      push_neg at hab hba hbc hcb
      have he1 : exactRatio a = exactRatio b := le_antisymm hba.1 hab.1
      have he2 : exactRatio b = exactRatio c := le_antisymm hcb.1 hbc.1
      have ht1 : a.total = b.total := le_antisymm (hba.2 he1.symm) (hab.2 he1)
      have ht2 : b.total = c.total := le_antisymm (hcb.2 he2.symm) (hbc.2 he2)
      constructor
      · rintro (h | ⟨_, h⟩)
        · rw [he1, he2] at h; exact lt_irrefl _ h
        · omega
      · rintro (h | ⟨_, h⟩)
        · rw [he1, he2] at h; exact lt_irrefl _ h
        · omega
  · intro hr i j hi hj
    have e1 : reportFunctionList.Less l i j = some (lessFn l[i] l[j]) := by
      simp [reportFunctionList.Less, List.getElem?_eq_getElem hi, List.getElem?_eq_getElem hj]
    rw [e1]
    congr 1
    have := lessFn_iff_exactLess l[i] l[j] (hr _ (List.getElem_mem hi))
      (hr _ (List.getElem_mem hj))
    by_cases h : exactLess l[i] l[j]
    · simp [h, this.mpr h]
    · have hf : lessFn l[i] l[j] = false := by
        by_contra hc
        exact h (this.mp (by simpa using hc))
      simp [h, hf]

/-- C16 at the two functions at 50% with 2 and 10 statements: the one with 2
statements is `Less` than the other and not the reverse, `reverse.Less` is
the opposite, no element is `Less` than itself, and on this list `Less` is
the comparison over exact ratios. -/
theorem C16_Less_strict_weak_order_witness :
    reportFunctionList.Less (reportFunctions pkgTie) 0 1 = some true ∧
    reportFunctionList.Less (reportFunctions pkgTie) 1 0 = some false ∧
    reverse.Less (reportFunctions pkgTie) 1 0 = some true ∧
    reportFunctionList.Less (reportFunctions pkgTie) 0 0 = some false ∧
    (∀ a ∈ reportFunctions pkgTie, InRange a) ∧
    reportFunctionList.Less (reportFunctions pkgTie) 0 1
      = some (decide (exactLess ((reportFunctions pkgTie).get ⟨0, by decide⟩)
          ((reportFunctions pkgTie).get ⟨1, by decide⟩))) :=
  ⟨by decide!,
    (C16_Less_strict_weak_order (reportFunctions pkgTie)).2.1 0 1 (by decide!),
    by decide!,
    (C16_Less_strict_weak_order (reportFunctions pkgTie)).1 0 (by decide),
    by decide,
    (C16_Less_strict_weak_order (reportFunctions pkgTie)).2.2.2.2.2.2.2.2.2.2.2
      (by decide) 0 1 (by decide) (by decide)⟩

/-! ### What `PrintReport` leaves unchanged -/

theorem sortSort_eq (plan : SwapPlan) (st : Store) :
    (st.sortSort plan).report = st.report ∧ (st.sortSort plan).w = st.w ∧
    (st.sortSort plan).functions = sorterOfPlan plan reverseLessFn st.functions := by
  refine ⟨rfl, rfl, ?_⟩
  unfold Store.sortSort sorterOfPlan
  simp only [reportFunctionList.Len]
  have hf : (fun i j => (reverse.Less st.functions i j).getD false)
      = (fun i j =>
          match st.functions[i]?, st.functions[j]? with
          | some a, some b => reverseLessFn a b
          | _, _ => false) := by
    funext i j
    unfold reverse.Less reportFunctionList.Less reverseLessFn
    cases st.functions[i]? <;> cases st.functions[j]? <;> rfl
  rw [hf]

/-- One `printPackage` on the store: the report is as before, the slice
`functions` holds the ranked copy, and the rows of the package are written. -/
theorem storePrintPackage_eq (plan : SwapPlan) (k : Nat) (st : Store) (pkg : Package)
    (hk : st.report.packages[k]? = some pkg) :
    (st.printPackage plan k).report = st.report ∧
    (st.printPackage plan k).functions = rankedFunctions (sorterOfPlan plan) pkg ∧
    (st.printPackage plan k).w = printPackage (sorterOfPlan plan) st.w pkg := by
  unfold Store.printPackage
  simp only [hk]
  have h := sortSort_eq plan { st with functions := reportFunctions pkg }
  refine ⟨h.1, h.2.2, ?_⟩
  simp only [h.1, h.2.1, h.2.2, hk, Option.map_some', Option.getD_some]
  rfl

theorem storePrintPackage_report (plan : SwapPlan) (k : Nat) (st : Store) :
    (st.printPackage plan k).report = st.report := by
  cases hk : st.report.packages[k]? with
  | none => unfold Store.printPackage; simp only [hk]
  | some pkg => exact (storePrintPackage_eq plan k st pkg hk).1

/-- The loop over a list of indices: the report stays, and the rows of the
packages at these indices are written with a blank row after each. -/
theorem printLoop_eq (plan : SwapPlan) (r : Report) (ks : List Nat)
    (hks : ∀ k ∈ ks, k < r.packages.length) :
    ∀ st : Store, st.report = r →
      (ks.foldl (fun s k =>
          let s1 := s.printPackage plan k
          { s1 with w := s1.w ++ ["\n"] }) st).report = r ∧
      (ks.foldl (fun s k =>
          let s1 := s.printPackage plan k
          { s1 with w := s1.w ++ ["\n"] }) st).w
        = st.w ++ (ks.map (fun k =>
            printPackage (sorterOfPlan plan) [] (r.packages.getD k (pkgNamed ""))
              ++ ["\n"])).flatten := by
  induction ks with
  | nil => intro st hst; simp [hst]
  | cons k ks ih =>
    intro st hst
    have hk : k < r.packages.length := hks k (List.mem_cons_self _ _)
    have hget : st.report.packages[k]? = some (r.packages.getD k (pkgNamed "")) := by
      rw [hst, List.getElem?_eq_getElem hk, List.getD_eq_getElem _ _ hk]
    obtain ⟨h1, _, h3⟩ := storePrintPackage_eq plan k st _ hget
    have hrest := ih (fun k2 hk2 => hks k2 (List.mem_cons_of_mem _ hk2))
      { st.printPackage plan k with w := (st.printPackage plan k).w ++ ["\n"] }
      (by simp only [h1, hst])
    simp only [List.foldl_cons, List.map_cons, List.flatten_cons]
    refine ⟨hrest.1, ?_⟩
    rw [hrest.2, h3, printPackage_eq, printPackage_eq]
    simp [List.append_assoc]

theorem map_range_getD (l : List Package) (f : Package → List String) :
    (List.range l.length).map (fun k => f (l.getD k (pkgNamed ""))) = l.map f := by
  apply List.ext_getElem
  · simp
  · intro i h1 h2
    have hi : i < l.length := by simpa using h1
    simp [List.getElem?_eq_getElem hi]

/-- C14: `PrintReport` leaves the report as it found it, with the packages,
the functions of every package in their order and the statements of every
function: on the store that holds all that the statements of `PrintReport`
and `printPackage` could write, whatever `Swap` calls `sort.Sort` makes, the
report after the run is the report before it. Each `printPackage` leaves the
report as it was as well, while the slice `functions` it made holds the ranked
copy; and the rows written are those of the value-level `PrintReport`. -/
theorem C14_PrintReport_leaves_report (plan : SwapPlan) (st : Store) :
    (st.PrintReport plan).report = st.report ∧
    (st.PrintReport plan).w = st.w ++ reportRows (sorterOfPlan plan) st.report ∧
    (∀ k, (st.printPackage plan k).report = st.report) ∧
    (∀ k pkg, st.report.packages[k]? = some pkg →
      (st.printPackage plan k).functions = rankedFunctions (sorterOfPlan plan) pkg ∧
      (st.printPackage plan k).report.packages[k]? = some pkg) ∧
    (∀ (srt : Sorter) (w : List Char) (r : Report), (PrintReport srt w r).2 = r) := by
  have hloop := printLoop_eq plan st.report (List.range st.report.packages.length)
    (fun k hk => List.mem_range.mp hk) st rfl
  refine ⟨hloop.1, ?_, fun k => storePrintPackage_report plan k st, ?_, fun _ _ _ => rfl⟩
  · have h2 := hloop.2
    unfold Store.PrintReport
    rw [h2, map_range_getD st.report.packages
      (fun pkg => printPackage (sorterOfPlan plan) [] pkg ++ ["\n"])]
    unfold reportRows
    rw [printPackages_eq, List.nil_append]
  · intro k pkg hk
    obtain ⟨h1, h2, _⟩ := storePrintPackage_eq plan k st pkg hk
    exact ⟨h2, by rw [h1, hk]⟩

/-- C14 at the report holding the package of the scenario and a run that swaps
its two elements: the slice `functions` ends as `f2`, `f1`, the rows are
written in that order, and the package still holds `f1`, `f2`. -/
theorem C14_PrintReport_leaves_report_witness :
    (Store.printPackage twoPlan 0
        { report := { packages := [pkgScenario] }, functions := [], w := [] }).functions
      = rankedFunctions (sorterOfPlan twoPlan) pkgScenario ∧
    (Store.printPackage twoPlan 0
        { report := { packages := [pkgScenario] }, functions := [], w := [] }).report.packages[0]?
      = some pkgScenario ∧
    (rankedFunctions (sorterOfPlan twoPlan) pkgScenario).map (fun rf => rf.toFunction.Name)
      = ["f2", "f1"] ∧
    pkgScenario.Functions.map (fun fn => fn.Name) = ["f1", "f2"] ∧
    (Store.PrintReport twoPlan
        { report := { packages := [pkgScenario] }, functions := [], w := [] }).report
      = { packages := [pkgScenario] } :=
  ⟨((C14_PrintReport_leaves_report twoPlan
      { report := { packages := [pkgScenario] }, functions := [], w := [] }).2.2.2.1
        0 pkgScenario rfl).1,
    ((C14_PrintReport_leaves_report twoPlan
      { report := { packages := [pkgScenario] }, functions := [], w := [] }).2.2.2.1
        0 pkgScenario rfl).2,
    by decide!, by decide,
    (C14_PrintReport_leaves_report twoPlan
      { report := { packages := [pkgScenario] }, functions := [], w := [] }).1⟩

/-! ### Texts without a tab or a line break -/

theorem cleanChars_append (a b : List Char) :
    CleanChars (a ++ b) ↔ CleanChars a ∧ CleanChars b := by
  unfold CleanChars
  simp only [List.mem_append]
  constructor
  · intro h
    exact ⟨fun ch hc => h ch (Or.inl hc), fun ch hc => h ch (Or.inr hc)⟩
  · rintro ⟨h1, h2⟩ ch (hc | hc)
    · exact h1 ch hc
    · exact h2 ch hc

theorem isBreak_digitChar (n : Nat) : isBreak (Nat.digitChar (n % 10)) = false := by
  have h : n % 10 < 10 := Nat.mod_lt n (by norm_num)
  generalize n % 10 = d at h
  interval_cases d <;> decide

theorem cleanChars_toDigitsCore (fuel : Nat) :
    ∀ (n : Nat) (ds : List Char), CleanChars ds → CleanChars (Nat.toDigitsCore 10 fuel n ds) := by
  induction fuel with
  | zero => intro n ds h; simpa [Nat.toDigitsCore] using h
  | succ f ih =>
    intro n ds h
    have hcons : CleanChars (Nat.digitChar (n % 10) :: ds) := by
      intro ch hc
      rcases List.mem_cons.mp hc with rfl | hc
      · exact isBreak_digitChar _
      · exact h ch hc
    unfold Nat.toDigitsCore
    simp only
    split_ifs
    · exact hcons
    · exact ih _ _ hcons

/-- The decimal numeral of a natural number has digits only. -/
theorem cleanChars_natToString (n : Nat) : CleanChars (toString n).data := by
  show CleanChars (Nat.toDigits 10 n).asString.data
  exact cleanChars_toDigitsCore _ _ _ (fun _ h => absurd h (List.not_mem_nil _))

theorem cleanChars_intToString (i : Int) : CleanChars (toString i).data := by
  cases i with
  | ofNat m => exact cleanChars_natToString m
  | negSucc m =>
    show CleanChars ("-" ++ toString (Nat.succ m)).data
    rw [String.data_append, cleanChars_append]
    exact ⟨by decide, cleanChars_natToString _⟩

theorem cleanChars_twoDigits (n : Nat) : CleanChars (twoDigits n).data := by
  unfold twoDigits
  rw [String.data_append, cleanChars_append]
  refine ⟨?_, cleanChars_natToString n⟩
  split_ifs <;> decide

theorem cleanChars_fmtFloat2 (x : F64) : CleanChars (fmtFloat2 x).data := by
  cases x with
  | fin k =>
    unfold fmtFloat2
    simp only [String.data_append, cleanChars_append]
    refine ⟨⟨⟨?_, cleanChars_natToString _⟩, by decide⟩, cleanChars_twoDigits _⟩
    split_ifs <;> decide
  | inf neg =>
    unfold fmtFloat2
    cases neg <;> decide
  | nan => unfold fmtFloat2; decide

theorem cleanChars_filepathBase (path : String) (h : CleanChars path.data) :
    CleanChars (filepathBase path).data := by
  unfold filepathBase
  by_cases h1 : path = ""
  · rw [if_pos h1]; decide
  rw [if_neg h1]
  simp only
  split_ifs
  · decide
  · intro ch hc
    apply h
    have h3 : ch ∈ (List.takeWhile (fun c => c != '/')
        (List.dropWhile (fun c => c == '/') path.data.reverse)) := List.mem_reverse.mp hc
    exact List.mem_reverse.mp
      ((List.dropWhile_sublist _).subset ((List.takeWhile_sublist _).subset h3))

/-! ### The tab writer on the rows of a package -/

theorem writeChar_clean (out : List Char) (lines : List (List (List Char)))
    (line : List (List Char)) (cell : List Char) (ch : Char) (h : isBreak ch = false) :
    TabWriter.writeChar ⟨out, lines, line, cell⟩ ch = ⟨out, lines, line, cell ++ [ch]⟩ := by
  simp only [isBreak, Bool.or_eq_false_iff, decide_eq_false_iff_not] at h
  obtain ⟨⟨⟨h1, h2⟩, h3⟩, h4⟩ := h
  simp [TabWriter.writeChar, h1, h2, h3, h4]

/-- A text without a tab or a line break goes to the cell being built. -/
theorem writeChars_clean (out : List Char) (lines : List (List (List Char)))
    (line : List (List Char)) (text : List Char) (h : CleanChars text) :
    ∀ cell, text.foldl TabWriter.writeChar ⟨out, lines, line, cell⟩
      = ⟨out, lines, line, cell ++ text⟩ := by
  induction text with
  | nil => intro cell; simp
  | cons ch text ih =>
    intro cell
    have hch : isBreak ch = false := h ch (List.mem_cons_self _ _)
    have ht : CleanChars text := fun c hc => h c (List.mem_cons_of_mem _ hc)
    rw [List.foldl_cons, writeChar_clean _ _ _ _ _ hch, ih ht]
    simp

theorem writeChar_tab (out : List Char) (lines : List (List (List Char)))
    (line : List (List Char)) (cell : List Char) :
    TabWriter.writeChar ⟨out, lines, line, cell⟩ '\t' = ⟨out, lines, line ++ [cell], []⟩ := by
  simp [TabWriter.writeChar]

theorem writeChar_newline_buffer (out : List Char) (lines : List (List (List Char)))
    (line : List (List Char)) (cell : List Char) (h : line ≠ []) :
    TabWriter.writeChar ⟨out, lines, line, cell⟩ '\n'
      = ⟨out, lines ++ [line ++ [cell]], [], []⟩ := by
  have hlen : (line ++ [cell]).length ≠ 1 := by
    cases line with
    | nil => exact absurd rfl h
    | cons a l => simp
  have h1 : ¬ ('\n' = '\t' ∨ '\n' = '\x0b') := by decide
  have h2 : ('\n' = '\n' ∨ '\n' = '\x0c') := by decide
  have h3 : ¬ (('\n' : Char) = '\x0c' ∨ (line ++ [cell]).length = 1) := by
    rintro (h | h)
    · exact absurd h (by decide)
    · exact hlen h
  unfold TabWriter.writeChar
  rw [if_neg h1, if_pos h2]
  simp only [if_neg h3]

theorem writeChar_newline_flush (out : List Char) (lines : List (List (List Char))) :
    TabWriter.writeChar ⟨out, lines, [], []⟩ '\n'
      = ⟨out ++ flushLines (lines ++ [[[]]]), [], [], []⟩ := by
  simp [TabWriter.writeChar]

/-- The text of a row, cell by cell. -/
theorem formatRow_data (name : String) (fn : reportFunction) :
    (formatRow name fn).data
      = rowCell0 name fn ++ '\t' :: (rowCell1 fn ++ '\t' :: (rowCell2 fn ++ ['\n'])) := by
  have h1 : ("\t " : String).data = '\t' :: (" " : String).data := rfl
  have h2 : (")\n" : String).data = (")" : String).data ++ ['\n'] := rfl
  unfold formatRow rowCell0 rowCell1 rowCell2
  simp only [String.data_append, h1, h2, List.append_assoc, List.cons_append, List.nil_append]

/-- A row whose cells have no tab or line break is buffered as a line of three
cells. -/
theorem write_row (out : List Char) (lines : List (List (List Char))) (name : String)
    (fn : reportFunction) (h0 : CleanChars (rowCell0 name fn)) (h1 : CleanChars (rowCell1 fn))
    (h2 : CleanChars (rowCell2 fn)) :
    TabWriter.write ⟨out, lines, [], []⟩ (formatRow name fn)
      = ⟨out, lines ++ [[rowCell0 name fn, rowCell1 fn, rowCell2 fn]], [], []⟩ := by
  unfold TabWriter.write
  rw [formatRow_data, List.foldl_append, writeChars_clean _ _ _ _ h0, List.foldl_cons,
    List.nil_append, writeChar_tab, List.foldl_append, writeChars_clean _ _ _ _ h1,
    List.foldl_cons, List.nil_append, writeChar_tab, List.foldl_append,
    writeChars_clean _ _ _ _ h2, List.nil_append]
  simp only [List.foldl_cons, List.foldl_nil, List.nil_append]
  rw [writeChar_newline_buffer _ _ _ _ (by simp)]
  simp

theorem write_rows (out : List Char) (name : String) (fns : List reportFunction)
    (h : ∀ fn ∈ fns, CleanChars (rowCell0 name fn) ∧ CleanChars (rowCell1 fn)
      ∧ CleanChars (rowCell2 fn)) :
    ∀ lines, (fns.map (formatRow name)).foldl TabWriter.write ⟨out, lines, [], []⟩
      = ⟨out, lines ++ fns.map (fun fn => [rowCell0 name fn, rowCell1 fn, rowCell2 fn]),
          [], []⟩ := by
  induction fns with
  | nil => intro lines; simp
  | cons fn fns ih =>
    intro lines
    obtain ⟨h0, h1, h2⟩ := h fn (List.mem_cons_self _ _)
    rw [List.map_cons, List.foldl_cons, write_row _ _ _ _ h0 h1 h2,
      ih (fun f hf => h f (List.mem_cons_of_mem _ hf))]
    simp

theorem write_blank (out : List Char) (lines : List (List (List Char))) :
    TabWriter.write ⟨out, lines, [], []⟩ "\n"
      = ⟨out ++ flushLines (lines ++ [[[]]]), [], [], []⟩ := by
  show List.foldl TabWriter.writeChar _ ['\n'] = _
  rw [List.foldl_cons, List.foldl_nil, writeChar_newline_flush]

/-! ### The flush of a block of three-cell lines -/

theorem takeWhile_of_head_false {α : Type} (p : α → Bool) (L R : List α)
    (h : ∀ x ∈ L, p x = false) (hne : L ≠ []) :
    (L ++ R).takeWhile p = [] ∧ (L ++ R).dropWhile p = L ++ R := by
  cases L with
  | nil => exact absurd rfl hne
  | cons x xs =>
    have hx := h x (List.mem_cons_self _ _)
    simp [List.takeWhile_cons, List.dropWhile_cons, hx]

theorem formatLines_nil (fuel : Nat) (widths : List Nat) : formatLines fuel widths [] = [] := by
  cases fuel <;> simp [formatLines]

theorem formatLines_blank (fuel : Nat) : formatLines fuel [] [[[]]] = ['\n'] := by
  cases fuel <;> simp [formatLines, writeLine, writeCells]

/-- With both column widths known, lines of three cells are written as they
are. -/
theorem formatLines_three (fuel w0 w1 : Nat) (L : List (List (List Char)))
    (h : ∀ l ∈ L, l.length = 3) :
    formatLines fuel [w0, w1] L = (L.map (writeLine [w0, w1])).flatten := by
  cases fuel with
  | zero => simp [formatLines]
  | succ f =>
    have hp : ∀ l ∈ L, (fun l : List (List Char) => decide (l.length ≤ 2 + 1)) l = true := by
      intro l hl; simp [h l hl]
    have e1 := @List.takeWhile_append_of_pos _ _ L [] hp
    have e2 := @List.dropWhile_append_of_pos _ _ L [] hp
    simp only [List.append_nil, List.takeWhile_nil, List.dropWhile_nil] at e1 e2
    simp only [formatLines, List.length_cons, List.length_nil, Nat.zero_add, Nat.reduceAdd]
    rw [e1, e2]
    simp

theorem formatLines_second (fuel w0 : Nat) (L : List (List (List Char)))
    (h : ∀ l ∈ L, l.length = 3) (hne : L ≠ []) :
    formatLines (fuel + 1) [w0] L
      = (L.map (writeLine [w0, L.foldl (fun w l => max w (l.getD 1 []).length) 0])).flatten := by
  have hp : ∀ l ∈ L, (fun l : List (List Char) => decide (l.length ≤ 1 + 1)) l = false := by
    intro l hl; simp [h l hl]
  have hq : ∀ l ∈ L, (fun l : List (List Char) => decide (1 + 1 < l.length)) l = true := by
    intro l hl; simp [h l hl]
  obtain ⟨e1, e2⟩ := takeWhile_of_head_false _ L [] hp hne
  have e3 := @List.takeWhile_append_of_pos _ _ L [] hq
  have e4 := @List.dropWhile_append_of_pos _ _ L [] hq
  simp only [List.append_nil, List.takeWhile_nil, List.dropWhile_nil] at e1 e2 e3 e4
  simp only [formatLines, List.length_cons, List.length_nil, Nat.zero_add]
  rw [e1, e2, e3, e4, if_neg hne]
  simp only [List.cons_append, List.nil_append, List.map_nil, List.flatten_nil]
  rw [formatLines_three _ _ _ _ h, formatLines_nil]
  simp

theorem formatLines_first (fuel : Nat) (L : List (List (List Char)))
    (h : ∀ l ∈ L, l.length = 3) (hne : L ≠ []) :
    formatLines (fuel + 2) [] (L ++ [[[]]])
      = (L.map (writeLine [L.foldl (fun w l => max w (l.getD 0 []).length) 0,
          L.foldl (fun w l => max w (l.getD 1 []).length) 0])).flatten ++ ['\n'] := by
  have hp : ∀ l ∈ L, (fun l : List (List Char) => decide (l.length ≤ 0 + 1)) l = false := by
    intro l hl; simp [h l hl]
  have hq : ∀ l ∈ L, (fun l : List (List Char) => decide (0 + 1 < l.length)) l = true := by
    intro l hl; simp [h l hl]
  obtain ⟨e1, e2⟩ := takeWhile_of_head_false _ L [[[]]] hp hne
  have e3 := @List.takeWhile_append_of_pos _ _ L [[[]]] hq
  have e4 := @List.dropWhile_append_of_pos _ _ L [[[]]] hq
  have e5 : List.takeWhile (fun l : List (List Char) => decide (0 + 1 < l.length)) [[[]]] = [] := by
    simp
  have e6 : List.dropWhile (fun l : List (List Char) => decide (0 + 1 < l.length)) [[[]]]
      = [[[]]] := by
    simp
  rw [e5] at e3
  rw [e6] at e4
  simp only [List.append_nil] at e3
  have hstep : formatLines (fuel + 2) [] (L ++ [[[]]])
      = formatLines (fuel + 1) [L.foldl (fun w l => max w (l.getD 0 []).length) 0] L
          ++ formatLines (fuel + 1) [] [[[]]] := by
    conv_lhs => unfold formatLines
    simp only [List.length_nil]
    rw [e1, e2, e3, e4, if_neg hne]
    simp
  rw [hstep, formatLines_second _ _ _ h hne, formatLines_blank]

/-- The flush at the blank line after the rows of a package: the rows, each
cell of the first two columns padded to the width of its column in this
block, and the blank line. -/
theorem flushLines_block (L : List (List (List Char))) (h : ∀ l ∈ L, l.length = 3) :
    flushLines (L ++ [[[]]])
      = (L.map (writeLine [L.foldl (fun w l => max w (l.getD 0 []).length) 0,
          L.foldl (fun w l => max w (l.getD 1 []).length) 0])).flatten ++ ['\n'] := by
  unfold flushLines
  rcases List.eq_nil_or_concat L with hL | ⟨L2, x, hL⟩
  · subst hL
    simp [formatLines_blank]
  · have hne : L ≠ [] := by rw [hL]; simp
    have hlen : 2 ≤ (L ++ [[[]]]).length := by
      rw [hL]; simp
    obtain ⟨f, hf⟩ : ∃ f, (L ++ [[[]]]).length + ((L ++ [[[]]]).map List.length).sum + 1
        = f + 2 := ⟨(L ++ [[[]]]).length + ((L ++ [[[]]]).map List.length).sum - 1, by omega⟩
    rw [hf, formatLines_first f L h hne]

/-! ### Where the columns start -/

theorem displayWidth_append (col : Nat) (a b : List Char) :
    displayWidth col (a ++ b) = displayWidth (displayWidth col a) b := by
  unfold displayWidth
  rw [List.foldl_append]

theorem displayWidth_clean (text : List Char) (h : CleanChars text) :
    ∀ col, displayWidth col text = col + text.length := by
  induction text with
  | nil => intro col; rfl
  | cons ch text ih =>
    intro col
    have hch : isBreak ch = false := h ch (List.mem_cons_self _ _)
    simp only [isBreak, Bool.or_eq_false_iff, decide_eq_false_iff_not] at hch
    have htab : ch ≠ '\t' := hch.1.1.1
    have ht : CleanChars text := fun c hc => h c (List.mem_cons_of_mem _ hc)
    have hstep : displayWidth col (ch :: text) = displayWidth (col + 1) text := by
      unfold displayWidth
      rw [List.foldl_cons, if_neg htab]
    rw [hstep, ih ht, List.length_cons]
    omega

theorem displayWidth_tabs (k : Nat) :
    ∀ col, displayWidth col (List.replicate k '\t')
      = if k = 0 then col else (col / 8 + k) * 8 := by
  induction k with
  | zero => intro col; rfl
  | succ k ih =>
    intro col
    have hstep : displayWidth col (List.replicate (k + 1) '\t')
        = displayWidth ((col / 8 + 1) * 8) (List.replicate k '\t') := by
      unfold displayWidth
      rw [List.replicate_succ, List.foldl_cons, if_pos rfl]
    rw [hstep, ih]
    by_cases hk : k = 0
    · subst hk; simp
    · rw [if_neg hk, if_neg (by omega)]
      have : (col / 8 + 1) * 8 / 8 = col / 8 + 1 := by omega
      rw [this]
      ring

/-- A cell and its padding end at the tab stop after the column width, counted
from the tab stop where the cell starts. -/
theorem displayWidth_cell (c : List Char) (w col : Nat) (hc : CleanChars c)
    (hw : c.length ≤ w) (hcol : col % 8 = 0) :
    displayWidth col (c ++ cellPadding c.length w) = col + (w + 7) / 8 * 8 := by
  rw [displayWidth_append, displayWidth_clean c hc]
  unfold cellPadding
  simp only
  rw [displayWidth_tabs]
  split_ifs with hk <;> omega

theorem foldl_max_ge {α : Type} (f : α → Nat) (l : List α) :
    ∀ init, init ≤ l.foldl (fun w x => max w (f x)) init ∧
      ∀ x ∈ l, f x ≤ l.foldl (fun w x => max w (f x)) init := by
  induction l with
  | nil => intro init; simp
  | cons a l ih =>
    intro init
    obtain ⟨h1, h2⟩ := ih (max init (f a))
    simp only [List.foldl_cons]
    refine ⟨le_trans (le_max_left _ _) h1, ?_⟩
    intro x hx
    rcases List.mem_cons.mp hx with rfl | hx
    · exact le_trans (le_max_right _ _) h1
    · exact h2 x hx

/-- The cells of the rows of a package without tabs or line breaks in its names
have none either. -/
theorem rowCells_clean (srt : Sorter) (hs : SortContract srt) (pkg : Package)
    (hclean : CleanPackage pkg) :
    ∀ fn ∈ rankedFunctions srt pkg,
      CleanChars (rowCell0 pkg.Name fn) ∧ CleanChars (rowCell1 fn) ∧ CleanChars (rowCell2 fn) := by
  intro fn hfn
  have hmem := (rankedFunctions_perm srt hs pkg).subset hfn
  obtain ⟨hf, _⟩ := mem_reportFunctions pkg fn hmem
  obtain ⟨hname, hfile⟩ := hclean.2 _ hf
  refine ⟨?_, ?_, ?_⟩
  · unfold rowCell0
    simp only [String.data_append, cleanChars_append]
    exact ⟨⟨⟨⟨hclean.1, by decide⟩, cleanChars_filepathBase _ hfile⟩, by decide⟩,
      cleanChars_intToString _⟩
  · unfold rowCell1
    simp only [String.data_append, cleanChars_append]
    exact ⟨by decide, hname⟩
  · unfold rowCell2
    simp only [String.data_append, cleanChars_append]
    exact ⟨⟨⟨⟨⟨⟨by decide, cleanChars_fmtFloat2 _⟩, by decide⟩, cleanChars_intToString _⟩,
      by decide⟩, cleanChars_natToString _⟩, by decide⟩

/-- The tab writer on the rows of one package and the blank row: the aligned
block of the package is delivered and nothing stays buffered. -/
theorem write_package (srt : Sorter) (hs : SortContract srt) (pkg : Package)
    (hclean : CleanPackage pkg) (out : List Char) :
    (printPackage srt [] pkg ++ ["\n"]).foldl TabWriter.write ⟨out, [], [], []⟩
      = ⟨out ++ alignedBlock srt pkg, [], [], []⟩ := by
  have hcells := rowCells_clean srt hs pkg hclean
  rw [printPackage_eq, List.nil_append, List.foldl_append,
    write_rows out pkg.Name _ hcells, List.nil_append]
  simp only [List.foldl_cons, List.foldl_nil]
  rw [write_blank, flushLines_block _ (by
    intro l hl
    obtain ⟨fn, _, rfl⟩ := List.mem_map.mp hl
    rfl)]
  congr 1
  unfold alignedBlock blockWidth0 blockWidth1
  rw [List.foldl_map, List.foldl_map, List.map_map]
  simp only [List.getD_cons_zero, List.getD_cons_succ]
  congr 3
  apply List.map_congr_left
  intro fn _
  simp [writeLine, writeCells, alignedLine, List.append_assoc]

theorem write_packages (srt : Sorter) (hs : SortContract srt) (packages : List Package)
    (hclean : ∀ pkg ∈ packages, CleanPackage pkg) :
    ∀ out, ((packages.map (fun pkg => printPackage srt [] pkg ++ ["\n"])).flatten).foldl
        TabWriter.write ⟨out, [], [], []⟩
      = ⟨out ++ (packages.map (alignedBlock srt)).flatten, [], [], []⟩ := by
  induction packages with
  | nil => intro out; simp
  | cons p ps ih =>
    intro out
    rw [List.map_cons, List.flatten_cons, List.foldl_append,
      write_package srt hs p (hclean p (List.mem_cons_self _ _)) out,
      ih (fun q hq => hclean q (List.mem_cons_of_mem _ hq))]
    simp [List.append_assoc]

/-! ### The bytes of clean text -/

theorem char_toNat_lt (c : Char) : c.toNat < 0x110000 := by
  have h := c.valid
  show c.val.toNat < 0x110000
  rcases h with h | ⟨_, h⟩
  · have : c.val.toNat < 0xd800 := h
    omega
  · exact h

/-- No byte of a character that ends neither a cell nor a line is one that
`Writer.Write` acts on: none is a tab, a newline, a vertical tab or a form
feed (bytes 9 to 12), and none is `tabwriter.Escape` (`0xff`). -/
theorem utf8Bytes_plain (c : Char) (h : isBreak c = false) :
    ∀ b ∈ utf8Bytes c, b < 0xff ∧ ¬ (9 ≤ b ∧ b ≤ 12) := by
  have hlt := char_toNat_lt c
  have h9 : ¬ (9 ≤ c.toNat ∧ c.toNat ≤ 12) := by
    intro ⟨h1, h2⟩
    have hc : c = Char.ofNat c.toNat := (Char.ofNat_toNat c).symm
    have : c.toNat = 9 ∨ c.toNat = 10 ∨ c.toNat = 11 ∨ c.toNat = 12 := by omega
    rcases this with e | e | e | e <;> rw [e] at hc <;> subst hc <;> simp [isBreak] at h
  intro b hb
  unfold utf8Bytes at hb
  simp only at hb
  split_ifs at hb with h1 h2 h3 <;> simp at hb <;> omega

/-- The same for a text: `Writer.Write` copies every byte of a clean text to
the cell being built. -/
theorem goBytes_plain (text : List Char) (h : CleanChars text) :
    ∀ b ∈ goBytes text, b < 0xff ∧ ¬ (9 ≤ b ∧ b ≤ 12) := by
  intro b hb
  unfold goBytes at hb
  rw [List.mem_flatMap] at hb
  obtain ⟨c, hc, hbc⟩ := hb
  exact utf8Bytes_plain c (h c hc) b hbc

/-- The encoding at characters of one, two, three and four bytes. -/
theorem utf8Bytes_examples :
    utf8Bytes 'a' = [0x61] ∧ utf8Bytes 'é' = [0xc3, 0xa9] ∧
    utf8Bytes '€' = [0xe2, 0x82, 0xac] ∧ utf8Bytes '😀' = [0xf0, 0x9f, 0x98, 0x80] ∧
    utf8Bytes 'ÿ' = [0xc3, 0xbf] := by
  decide

/-! ### The alignment of the delivered text -/

/-- C11 as stated fails. For the report holding `pkgScenario` and `pkgWide` the
text delivered has the function lines of the first package with the
function-name cell at position 16 and the percent cell at position 24, and
those of the second package with the function-name cell at position 8 and the
percent cell at position 32: the alignment is restarted at the blank line
after each package. And within the single package `pkgTab`, whose second
function has a tab in its name, the percent cell starts at position 16 on the
first line and at position 24 on the second. -/
theorem C11_alignment_counterexample :
    (PrintReport insertionSorter [] { packages := [pkgScenario, pkgWide] }).1
      = ("pkg/b.go:5\t" ++ " f2\t" ++ " 100.00% (3/3)\n"
          ++ "pkg/a.go:3\t" ++ " f1\t" ++ " 50.00% (2/4)\n" ++ "\n"
          ++ "p/a.go:1" ++ " f\t\t\t" ++ " 100.00% (1/1)\n"
          ++ "p/b.go:2" ++ " aLongFunctionName\t" ++ " 0.00% (0/1)\n" ++ "\n").data ∧
    (PrintReport insertionSorter [] { packages := [pkgScenario, pkgWide] }).1
      = (([pkgScenario, pkgWide] : List Package).map (alignedBlock insertionSorter)).flatten ∧
    (rankedFunctions insertionSorter pkgScenario).map
        (nameColumn (blockWidth0 insertionSorter pkgScenario) "pkg") = [16, 16] ∧
    (rankedFunctions insertionSorter pkgWide).map
        (nameColumn (blockWidth0 insertionSorter pkgWide) "p") = [8, 8] ∧
    (rankedFunctions insertionSorter pkgScenario).map
        (percentColumn (blockWidth0 insertionSorter pkgScenario)
          (blockWidth1 insertionSorter pkgScenario) "pkg") = [24, 24] ∧
    (rankedFunctions insertionSorter pkgWide).map
        (percentColumn (blockWidth0 insertionSorter pkgWide)
          (blockWidth1 insertionSorter pkgWide) "p") = [32, 32] ∧
    (PrintReport insertionSorter [] { packages := [pkgTab] }).1
      = ("p/a.go:1 a\t" ++ " 100.00% (1/1)\n"
          ++ "p/a.go:2 b\tc\t" ++ " 0.00% (0/1)\n" ++ "\n").data ∧
    displayWidth 0 "p/a.go:1 a\t".data = 16 ∧
    displayWidth 0 "p/a.go:2 b\tc\t".data = 24 := by
  refine ⟨?_, ?_, ?_, ?_, ?_, ?_, ?_, ?_, ?_⟩ <;> decide!

/-- C11, amended: for every report whose package names, function names and
file names are valid UTF-8 (they are `String`s, so none holds the byte `0xff`
that `text/tabwriter` takes as `Escape`) and have no tab, vertical tab, newline
or form feed, the text `PrintReport` delivers is, package after package, the
block of the package:
its function lines, the first two cells of each padded with tabs to the
widths of the columns of this block, then the blank line. On every function
line of a package the function-name cell starts at the same position, the
first tab stop at or after the widest first cell of the package, and the
percent cell starts at the same position, further right by the first tab stop
at or after the widest function-name cell of the package. The positions are
those of the package, not of the report; they are counted in characters, one
position for each character that is not a tab and a tab stop every 8
positions, as the tab writer counts. The sort is any procedure meeting the
contract of `sort.Sort`. Names that are not valid UTF-8 are outside this
statement. -/
theorem C11_alignment_per_package (srt : Sorter) (hs : SortContract srt) (w : List Char)
    (r : Report) (hclean : ∀ pkg ∈ r.packages, CleanPackage pkg) :
    (PrintReport srt w r).1 = w ++ (r.packages.map (alignedBlock srt)).flatten ∧
    ∀ pkg ∈ r.packages, ∀ fn ∈ rankedFunctions srt pkg,
      nameColumn (blockWidth0 srt pkg) pkg.Name fn = (blockWidth0 srt pkg + 7) / 8 * 8 ∧
      percentColumn (blockWidth0 srt pkg) (blockWidth1 srt pkg) pkg.Name fn
        = (blockWidth0 srt pkg + 7) / 8 * 8 + (blockWidth1 srt pkg + 7) / 8 * 8 := by
  constructor
  · unfold PrintReport reportRows
    simp only
    rw [printPackages_eq, List.nil_append]
    have h := write_packages srt hs r.packages hclean []
    have hnew : TabWriter.new = ⟨[], [], [], []⟩ := rfl
    rw [hnew, h]
    simp
  · intro pkg hpkg fn hfn
    obtain ⟨h0, h1, _⟩ := rowCells_clean srt hs pkg (hclean pkg hpkg) fn hfn
    have hw0 : (rowCell0 pkg.Name fn).length ≤ blockWidth0 srt pkg :=
      (foldl_max_ge (fun f => (rowCell0 pkg.Name f).length) (rankedFunctions srt pkg) 0).2 fn hfn
    have hw1 : (rowCell1 fn).length ≤ blockWidth1 srt pkg :=
      (foldl_max_ge (fun f => (rowCell1 f).length) (rankedFunctions srt pkg) 0).2 fn hfn
    have hname : nameColumn (blockWidth0 srt pkg) pkg.Name fn
        = (blockWidth0 srt pkg + 7) / 8 * 8 := by
      unfold nameColumn
      rw [displayWidth_cell _ _ 0 h0 hw0 rfl, Nat.zero_add]
    refine ⟨hname, ?_⟩
    unfold percentColumn
    unfold nameColumn at hname
    rw [List.append_assoc, displayWidth_append, hname,
      displayWidth_cell _ _ _ h1 hw1 (by omega)]

/-- C11, amended, at the insertion sort and the report holding `pkgScenario`
and `pkgWide`, whose names are valid UTF-8 and free of tabs and line breaks. -/
theorem C11_alignment_per_package_witness :
    SortContract insertionSorter ∧
    (∀ pkg ∈ ([pkgScenario, pkgWide] : List Package), CleanPackage pkg) ∧
    ((PrintReport insertionSorter [] { packages := [pkgScenario, pkgWide] }).1
      = [] ++ (([pkgScenario, pkgWide] : List Package).map
          (alignedBlock insertionSorter)).flatten ∧
    ∀ pkg ∈ ([pkgScenario, pkgWide] : List Package),
      ∀ fn ∈ rankedFunctions insertionSorter pkg,
        nameColumn (blockWidth0 insertionSorter pkg) pkg.Name fn
          = (blockWidth0 insertionSorter pkg + 7) / 8 * 8 ∧
        percentColumn (blockWidth0 insertionSorter pkg) (blockWidth1 insertionSorter pkg)
            pkg.Name fn
          = (blockWidth0 insertionSorter pkg + 7) / 8 * 8
            + (blockWidth1 insertionSorter pkg + 7) / 8 * 8) :=
  ⟨insertionSorter_contract, by decide,
    C11_alignment_per_package insertionSorter insertionSorter_contract []
      { packages := [pkgScenario, pkgWide] } (by decide)⟩

end Gocov
